import Mathlib

/-!
Verification development for the README.ai repository.

The development shallowly embeds the parts of the code base that carry the
spec's guarantees:

* the lenient analysis route (`app/api/analyze/route.ts`, lenient variant in
  `concepts-display.tsx` lines 572-713): markdown-fence stripping, brace
  slicing, `JSON.parse`, duck-typed repair of concepts and questions, and the
  fallback dataset `getFallbackData`;
* the strict analysis route's zod schema `analysisSchema`;
* the polling `useEffect` of `VideoPanel` (`video-panel.tsx` lines 27-49),
  modelled as a labelled transition system over the event-loop interleavings
  that `setInterval` with an `async` callback admits;
* `generateVideo` (`video-panel.tsx` lines 51-87) and `deleteJob`
  (`video-library.tsx` lines 47-62);
* the fallback-sentinel check of `analyzeDocument` (`page.tsx` line 110).

JavaScript values reachable in these code paths are modelled by `JValue`.
JSON numbers are modelled as exact decimals `m / 10^s` (IEEE-754 rounding of
`JSON.parse` is not modelled; every literal appearing in the claims is exact).
-/

/-- A JSON value as produced by `JSON.parse` (also used for the values the
duck-typed repair code manipulates).  A number `jnum m s` denotes `m / 10^s`. -/
inductive JValue where
  | jnull
  | jbool (b : Bool)
  | jnum (m : ℤ) (s : ℕ)
  | jstr (str : String)
  | jarr (elems : List JValue)
  | jobj (fields : List (String × JValue))

namespace JValue

/-- The rational denoted by a parsed JSON number. -/
def numToRat (m : ℤ) (s : ℕ) : ℚ := (m : ℚ) / (10 : ℚ) ^ s

/-- JavaScript truthiness of a `JValue` (`undefined` is handled separately as
`Option.none` by callers).  Arrays and objects are always truthy. -/
def truthy : JValue → Bool
  | jnull => false
  | jbool b => b
  | jnum m _ => m ≠ 0
  | jstr str => str ≠ ""
  | jarr _ => true
  | jobj _ => true

end JValue

/-- Property lookup on an assoc list of object fields. -/
def lookupField (fs : List (String × JValue)) (k : String) : Option JValue :=
  (fs.find? (fun kv => kv.1 = k)).map (fun kv => kv.2)

/-- Property assignment: replaces the binding for `k` (JSON objects produced by
our parser have unique keys; later bindings overwrite earlier ones). -/
def setField (fs : List (String × JValue)) (k : String) (v : JValue) :
    List (String × JValue) :=
  fs.filter (fun kv => kv.1 ≠ k) ++ [(k, v)]

/-!  ### The JSON parser (model of `JSON.parse`)

`JSON.parse` is a host primitive; it is modelled by a standard recursive
descent parser over the JSON grammar.  Recursion is fuelled so that every
definition is structural and kernel-reducible; `parseJson` supplies fuel that
is always sufficient. -/

/-- JSON insignificant whitespace (space, tab, line feed, carriage return). -/
def jsonWs (c : Char) : Bool :=
  c = ' ' || c = '\t' || c = '\n' || c = '\r'

def skipWs (s : List Char) : List Char := s.dropWhile jsonWs

/-- Value of a list of decimal digit characters. -/
def digitsVal (ds : List Char) : ℕ :=
  ds.foldl (fun n c => 10 * n + (c.toNat - 48)) 0

def hexVal (c : Char) : Option ℕ :=
  if '0' ≤ c ∧ c ≤ '9' then some (c.toNat - 48)
  else if 'a' ≤ c ∧ c ≤ 'f' then some (c.toNat - 87)
  else if 'A' ≤ c ∧ c ≤ 'F' then some (c.toNat - 55)
  else none

/-- Characters of a JSON string literal after the opening quote, with escape
processing; returns the decoded characters and the input after the closing
quote.  (Surrogate-pair recombination of `\uXXXX` escapes is not modelled;
no input in this development uses them.) -/
def parseStrChars : List Char → Option (List Char × List Char)
  | [] => none
  | '"' :: rest => some ([], rest)
  | '\\' :: '"' :: rest => (parseStrChars rest).map (fun p => ('"' :: p.1, p.2))
  | '\\' :: '\\' :: rest => (parseStrChars rest).map (fun p => ('\\' :: p.1, p.2))
  | '\\' :: '/' :: rest => (parseStrChars rest).map (fun p => ('/' :: p.1, p.2))
  | '\\' :: 'b' :: rest => (parseStrChars rest).map (fun p => (Char.ofNat 8 :: p.1, p.2))
  | '\\' :: 'f' :: rest => (parseStrChars rest).map (fun p => (Char.ofNat 12 :: p.1, p.2))
  | '\\' :: 'n' :: rest => (parseStrChars rest).map (fun p => ('\n' :: p.1, p.2))
  | '\\' :: 'r' :: rest => (parseStrChars rest).map (fun p => ('\r' :: p.1, p.2))
  | '\\' :: 't' :: rest => (parseStrChars rest).map (fun p => ('\t' :: p.1, p.2))
  | '\\' :: 'u' :: a :: b :: c :: d :: rest => do
      let ha ← hexVal a
      let hb ← hexVal b
      let hc ← hexVal c
      let hd ← hexVal d
      let p ← parseStrChars rest
      some (Char.ofNat (((ha * 16 + hb) * 16 + hc) * 16 + hd) :: p.1, p.2)
  | '\\' :: _ => none
  | c :: rest =>
      if c.toNat < 32 then none
      else (parseStrChars rest).map (fun p => (c :: p.1, p.2))

/-- Optional fraction part `.digits`; returns the fraction digits (empty when
absent) and the rest. -/
def parseFrac : List Char → Option (List Char × List Char)
  | '.' :: r =>
      let fp := r.takeWhile Char.isDigit
      if fp.isEmpty then none else some (fp, r.drop fp.length)
  | s => some ([], s)

/-- Optional exponent part `[eE][+-]?digits`; returns the signed exponent. -/
def parseExp : List Char → Option (ℤ × List Char)
  | [] => some (0, [])
  | c :: r =>
      if c = 'e' ∨ c = 'E' then
        let sr : ℤ × List Char :=
          match r with
          | '+' :: r2 => (1, r2)
          | '-' :: r2 => (-1, r2)
          | _ => (1, r)
        let ed := sr.2.takeWhile Char.isDigit
        if ed.isEmpty then none
        else some (sr.1 * (digitsVal ed : ℤ), sr.2.drop ed.length)
      else some (0, c :: r)

/-- Assemble a parsed JSON number `[-] ip [. fp] [e exp]` into an exact
decimal `JValue.jnum`. -/
def mkJNum (neg : Bool) (ip fp : List Char) (e : ℤ) : JValue :=
  let mAbs : ℤ := (digitsVal ip : ℤ) * 10 ^ fp.length + (digitsVal fp : ℤ)
  let m : ℤ := if neg then -mAbs else mAbs
  let t : ℤ := e - (fp.length : ℤ)
  if 0 ≤ t then JValue.jnum (m * 10 ^ t.toNat) 0 else JValue.jnum m (-t).toNat

/-- JSON number literal. -/
def parseNum (s : List Char) : Option (JValue × List Char) :=
  let nr : Bool × List Char :=
    match s with
    | '-' :: r => (true, r)
    | _ => (false, s)
  let ip := nr.2.takeWhile Char.isDigit
  if ip.isEmpty then none
  else if ip.length > 1 && ip.headI = '0' then none
  else do
    let (fp, s2) ← parseFrac (nr.2.drop ip.length)
    let (e, s3) ← parseExp s2
    some (mkJNum nr.1 ip fp e, s3)

/-- Intermediate results of the fuelled parser core. -/
inductive POut where
  | val (x : JValue) (rest : List Char)
  | elems (xs : List JValue) (rest : List Char)
  | members (fs : List (String × JValue)) (rest : List Char)

/-- Parsing mode: a single value, the element list of an array after `[`, or
the member list of an object after `{`. -/
inductive PMode where
  | val
  | elems (acc : List JValue)
  | members (acc : List (String × JValue))

/-- Fuelled recursive-descent core of the JSON grammar. -/
def parseCore : ℕ → PMode → List Char → Option POut
  | 0, _, _ => none
  | Nat.succ fuel, PMode.val, s =>
      match skipWs s with
      | 'n' :: 'u' :: 'l' :: 'l' :: r => some (POut.val JValue.jnull r)
      | 't' :: 'r' :: 'u' :: 'e' :: r => some (POut.val (JValue.jbool true) r)
      | 'f' :: 'a' :: 'l' :: 's' :: 'e' :: r => some (POut.val (JValue.jbool false) r)
      | '"' :: r => do
          let (cs, r2) ← parseStrChars r
          some (POut.val (JValue.jstr (String.mk cs)) r2)
      | '[' :: r =>
          match skipWs r with
          | ']' :: r2 => some (POut.val (JValue.jarr []) r2)
          | r2 => do
              match ← parseCore fuel (PMode.elems []) r2 with
              | POut.elems xs r3 => some (POut.val (JValue.jarr xs) r3)
              | _ => none
      | '{' :: r =>
          match skipWs r with
          | '}' :: r2 => some (POut.val (JValue.jobj []) r2)
          | r2 => do
              match ← parseCore fuel (PMode.members []) r2 with
              | POut.members fs r3 => some (POut.val (JValue.jobj fs) r3)
              | _ => none
      | s' => do
          let (v, r) ← parseNum s'
          some (POut.val v r)
  | Nat.succ fuel, PMode.elems acc, s => do
      match ← parseCore fuel PMode.val s with
      | POut.val x r =>
          match skipWs r with
          | ',' :: r2 => parseCore fuel (PMode.elems (acc ++ [x])) r2
          | ']' :: r2 => some (POut.elems (acc ++ [x]) r2)
          | _ => none
      | _ => none
  | Nat.succ fuel, PMode.members acc, s =>
      match skipWs s with
      | '"' :: r => do
          let (kcs, r2) ← parseStrChars r
          match skipWs r2 with
          | ':' :: r3 =>
              match ← parseCore fuel PMode.val r3 with
              | POut.val v r4 =>
                  match skipWs r4 with
                  | ',' :: r5 =>
                      parseCore fuel (PMode.members (setField acc (String.mk kcs) v)) r5
                  | '}' :: r5 => some (POut.members (setField acc (String.mk kcs) v) r5)
                  | _ => none
              | _ => none
          | _ => none
      | _ => none

/-- Model of `JSON.parse`: parse one JSON value and require that only
whitespace follows. -/
def parseJson (s : List Char) : Option JValue :=
  match parseCore (2 * s.length + 8) PMode.val s with
  | some (POut.val x rest) => if (skipWs rest).isEmpty then some x else none
  | _ => none

/-!  ### Text cleaning of the lenient route

Model of (`concepts-display.tsx` lines 636-648):
```
let cleanedText = result.text.trim()
cleanedText = cleanedText.replace(/```json\s*/g, "").replace(/```\s*/g, "")
const jsonStart = cleanedText.indexOf("{")
const jsonEnd = cleanedText.lastIndexOf("}") + 1
if (jsonStart !== -1 && jsonEnd > jsonStart) {
  cleanedText = cleanedText.substring(jsonStart, jsonEnd)
}
```
-/

/-- ASCII whitespace as matched by the regex class `\s` and by
`String.prototype.trim` (the non-ASCII whitespace JavaScript also accepts is
not modelled; no input in this development contains any). -/
def jsWs (c : Char) : Bool :=
  c = ' ' || c = '\t' || c = '\n' || c = '\r' || c = '\x0B' || c = '\x0C'

def trimLeft (s : List Char) : List Char := s.dropWhile jsWs

def trimRight (s : List Char) : List Char := (s.reverse.dropWhile jsWs).reverse

/-- `String.prototype.trim`. -/
def jsTrim (s : List Char) : List Char := trimRight (trimLeft s)

/-- One global-replace pass of `replace(/TOK\s*/g, "")`, scanning left to
right.  State: `k` is the number of characters of a detected token occurrence
still to be discarded; the flag records whether the scanner is inside the
`\s*` run following a consumed token. -/
def stripTok (tok : List Char) : ℕ → Bool → List Char → List Char
  | _, _, [] => []
  | Nat.succ k, ws, _ :: rest => stripTok tok k ws rest
  | 0, ws, c :: rest =>
      if ws && jsWs c then stripTok tok 0 true rest
      else if tok.isPrefixOf (c :: rest) then stripTok tok (tok.length - 1) true rest
      else c :: stripTok tok 0 false rest

/-- `text.replace(/TOK\s*/g, "")`. -/
def stripPass (tok : List Char) (s : List Char) : List Char := stripTok tok 0 false s

/-- Index of the first occurrence of `c` (`String.prototype.indexOf`,
`none` for `-1`). -/
def firstIdx (c : Char) : List Char → Option ℕ
  | [] => none
  | x :: xs => if x = c then some 0 else (firstIdx c xs).map (fun i => i + 1)

/-- Index of the last occurrence of `c` (`String.prototype.lastIndexOf`). -/
def lastIdx (c : Char) : List Char → Option ℕ
  | [] => none
  | x :: xs =>
      match lastIdx c xs with
      | some i => some (i + 1)
      | none => if x = c then some 0 else none

/-- The brace-slicing step: substring from the first `{` to the last `}`
inclusive, left unchanged when the guard `jsonStart !== -1 && jsonEnd >
jsonStart` fails. -/
def sliceBraces (s : List Char) : List Char :=
  match firstIdx '{' s, lastIdx '}' s with
  | some i, some j => if i < j + 1 then (s.drop i).take (j + 1 - i) else s
  | _, _ => s

/-- The complete text-cleaning pipeline of the lenient route. -/
def cleanText (s : List Char) : List Char :=
  sliceBraces (stripPass ("```".toList) (stripPass ("```json".toList) (jsTrim s)))

/-!  ### Duck-typed repair of the lenient route

Model of (`concepts-display.tsx` lines 652-688).  JavaScript exceptions
(`TypeError` on property access on `null`, the explicit `throw new Error`
guards) are modelled by `Except.error ()`: the route's `catch` turns every
such throw into the fallback path, so the distinct messages are not
observable. -/

/-- Property access `v.field` as performed by the repair code: accessing a
property of `null` throws (modelled as `Except.error`), access on any other
primitive yields `undefined` (`none`). -/
def getField : JValue → String → Except Unit (Option JValue)
  | JValue.jnull, _ => Except.error ()
  | JValue.jobj fs, k => Except.ok (lookupField fs k)
  | _, _ => Except.ok none

/-- `x || d` for a possibly-`undefined` field value `x`. -/
def orDefault (x : Option JValue) (d : JValue) : JValue :=
  match x with
  | some v => if v.truthy then v else d
  | none => d

/-- Optional chaining `x?.field`: `undefined` instead of a throw on
`null`/`undefined`, `undefined` on other primitives. -/
def optChainField (x : Option JValue) (k : String) : Option JValue :=
  match x with
  | some (JValue.jobj fs) => lookupField fs k
  | _ => none

/-- Optional chaining `x?.[i]`. -/
def optIndex (x : Option JValue) (i : ℕ) : Option JValue :=
  match x with
  | some (JValue.jarr xs) => xs.get? i
  | _ => none

/-- Repair of one concept (index `i` is 0-based; the default title is
`Concept ${index + 1}`). -/
def repairedConcept (i : ℕ) (c : JValue) : Except Unit JValue := do
  let title ← getField c "title"
  let summary ← getField c "summary"
  let citations ← getField c "citations"
  let importance ← getField c "importance"
  Except.ok (JValue.jobj
    [("title", orDefault title (JValue.jstr ("Concept " ++ toString (i + 1)))),
     ("summary", orDefault summary (JValue.jstr "Summary not available")),
     ("citations",
       match citations with
       | some (JValue.jarr xs) => JValue.jarr (xs.take 3)
       | _ => JValue.jarr []),
     ("importance", orDefault importance (JValue.jstr "Importance not specified"))])

def optionPlaceholders : JValue :=
  JValue.jarr [JValue.jstr "Option A", JValue.jstr "Option B",
    JValue.jstr "Option C", JValue.jstr "Option D"]

/-- Repair of one question.  `firstTitle` is
`parsedResult.concepts[0]?.title` evaluated on the already-repaired concept
array.  The `correctAnswer` guard is
`typeof x === "number" && x >= 0 && x <= 3` (on `jnum m s` denoting `m/10^s`:
`0 ≤ m` and `m ≤ 3 * 10^s`). -/
def repairedQuestion (firstTitle : Option JValue) (i : ℕ) (q : JValue) :
    Except Unit JValue := do
  let question ← getField q "question"
  let options ← getField q "options"
  let ca ← getField q "correctAnswer"
  let conceptRef ← getField q "concept"
  Except.ok (JValue.jobj
    [("question", orDefault question (JValue.jstr ("Question " ++ toString (i + 1)))),
     ("options",
       match options with
       | some (JValue.jarr xs) => if xs.length = 4 then JValue.jarr xs else optionPlaceholders
       | _ => optionPlaceholders),
     ("correctAnswer",
       match ca with
       | some (JValue.jnum m s) =>
           if 0 ≤ m ∧ m ≤ 3 * 10 ^ s then JValue.jnum m s else JValue.jnum 0 0
       | _ => JValue.jnum 0 0),
     ("concept", orDefault conceptRef (orDefault firstTitle (JValue.jstr "General")))])

def repairConceptList : ℕ → List JValue → Except Unit (List JValue)
  | _, [] => Except.ok []
  | i, c :: rest => do
      let c2 ← repairedConcept i c
      let rest2 ← repairConceptList (i + 1) rest
      Except.ok (c2 :: rest2)

def repairQuestionList (firstTitle : Option JValue) :
    ℕ → List JValue → Except Unit (List JValue)
  | _, [] => Except.ok []
  | i, q :: rest => do
      let q2 ← repairedQuestion firstTitle i q
      let rest2 ← repairQuestionList firstTitle (i + 1) rest
      Except.ok (q2 :: rest2)

/-- Validation and repair of the parsed lenient response
(`concepts-display.tsx` lines 653-688).  Arrays are truthy in JavaScript, so
`!parsedResult.concepts || !Array.isArray(parsedResult.concepts)` passes
exactly on array values.  The questions are repaired after
`parsedResult.concepts` has been reassigned, so `firstTitle` reads the
repaired first concept.  The minimum-length guards run after both repairs. -/
def repairParsed : JValue → Except Unit JValue
  | JValue.jobj fs => do
      let cs ← match lookupField fs "concepts" with
        | some (JValue.jarr cs) => Except.ok cs
        | _ => Except.error ()
      let qs ← match lookupField fs "questions" with
        | some (JValue.jarr qs) => Except.ok qs
        | _ => Except.error ()
      let cs2 ← repairConceptList 0 (cs.take 8)
      let firstTitle := optChainField cs2.head? "title"
      let qs2 ← repairQuestionList firstTitle 0 (qs.take 12)
      if cs2.length < 3 then Except.error ()
      else if qs2.length < 4 then Except.error ()
      else Except.ok (JValue.jobj
        (setField (setField fs "concepts" (JValue.jarr cs2)) "questions" (JValue.jarr qs2)))
  | _ => Except.error ()

/-- The lenient normalization path applied to the raw model text: clean,
`JSON.parse`, validate and repair.  `Except.error` is every hard failure that
makes the route fall through to `getFallbackData`. -/
def lenientNormalize (raw : String) : Except Unit JValue :=
  match parseJson (cleanText raw.toList) with
  | some v => repairParsed v
  | none => Except.error ()

/-!  ### Result accessors and invariant checkers -/

def fieldOf (v : JValue) (k : String) : Option JValue :=
  match v with
  | JValue.jobj fs => lookupField fs k
  | _ => none

def conceptsOf (v : JValue) : List JValue :=
  match fieldOf v "concepts" with
  | some (JValue.jarr cs) => cs
  | _ => []

def questionsOf (v : JValue) : List JValue :=
  match fieldOf v "questions" with
  | some (JValue.jarr qs) => qs
  | _ => []

/-- `options` is an array of exactly 4 entries. -/
def optionsLen4 (q : JValue) : Bool :=
  match fieldOf q "options" with
  | some (JValue.jarr xs) => decide (xs.length = 4)
  | _ => false

/-- `correctAnswer` is a number in `[0, 3]` (`jnum m s` denotes `m / 10^s`). -/
def caNumIn03 (q : JValue) : Bool :=
  match fieldOf q "correctAnswer" with
  | some (JValue.jnum m s) => decide (0 ≤ m) && decide (m ≤ 3 * 10 ^ s)
  | _ => false

/-- `correctAnswer` is an *integer* in `[0, 3]`. -/
def caIntIn03 (q : JValue) : Bool :=
  match fieldOf q "correctAnswer" with
  | some (JValue.jnum m s) =>
      decide (0 ≤ m) && decide (m ≤ 3 * 10 ^ s) && decide ((10 : ℤ) ^ s ∣ m)
  | _ => false

/-- A field value that is a non-empty string. -/
def isNonemptyStr (x : Option JValue) : Bool :=
  match x with
  | some (JValue.jstr t) => decide (t ≠ "")
  | _ => false

/-- `title`, `summary` and `importance` are non-empty strings. -/
def conceptTextFieldsNonemptyStr (c : JValue) : Bool :=
  isNonemptyStr (fieldOf c "title") && isNonemptyStr (fieldOf c "summary") &&
    isNonemptyStr (fieldOf c "importance")

/-- The AnalysisResult invariants of the claims: `concepts.length ∈ [3,10]`,
`questions.length ≥ 4`, every `options` has exactly 4 entries, every
`correctAnswer` is an integer in `[0,3]`. -/
def analysisInvariants (v : JValue) : Bool :=
  decide (3 ≤ (conceptsOf v).length) && decide ((conceptsOf v).length ≤ 10) &&
    decide (4 ≤ (questionsOf v).length) &&
    (questionsOf v).all (fun q => optionsLen4 q && caIntIn03 q)

/-!  ### The strict route's zod schema (`concepts-display.tsx` lines 381-404)

`z.object` requires each listed field; `z.array(z.string()).default([])`
accepts an absent `citations`; `correctAnswer` is `z.number().min(0).max(3)`
(no integrality constraint). -/

def isStringVal : JValue → Bool
  | JValue.jstr _ => true
  | _ => false

def zodConceptOk (v : JValue) : Bool :=
  match v with
  | JValue.jobj fs =>
      (match lookupField fs "title" with | some (JValue.jstr _) => true | _ => false) &&
      (match lookupField fs "summary" with | some (JValue.jstr _) => true | _ => false) &&
      (match lookupField fs "importance" with | some (JValue.jstr _) => true | _ => false) &&
      (match lookupField fs "citations" with
       | none => true
       | some (JValue.jarr xs) => xs.all isStringVal
       | _ => false)
  | _ => false

def zodQuestionOk (v : JValue) : Bool :=
  match v with
  | JValue.jobj fs =>
      (match lookupField fs "question" with | some (JValue.jstr _) => true | _ => false) &&
      (match lookupField fs "options" with
       | some (JValue.jarr xs) => decide (xs.length = 4) && xs.all isStringVal
       | _ => false) &&
      (match lookupField fs "correctAnswer" with
       | some (JValue.jnum m s) => decide (0 ≤ m) && decide (m ≤ 3 * 10 ^ s)
       | _ => false) &&
      (match lookupField fs "concept" with | some (JValue.jstr _) => true | _ => false)
  | _ => false

/-- `analysisSchema`: what `generateObject` guarantees about `result.object`
on the strict route's success path. -/
def analysisSchema (v : JValue) : Bool :=
  match v with
  | JValue.jobj fs =>
      (match lookupField fs "concepts" with
       | some (JValue.jarr cs) =>
           cs.all zodConceptOk && decide (3 ≤ cs.length) && decide (cs.length ≤ 10)
       | _ => false) &&
      (match lookupField fs "questions" with
       | some (JValue.jarr qs) =>
           qs.all zodQuestionOk && decide (5 ≤ qs.length) && decide (qs.length ≤ 15)
       | _ => false)
  | _ => false

/-!  ### The fallback dataset (`concepts-display.tsx` lines 488-570) -/

/-- `getFallbackData` — the fixed degraded dataset returned whenever the AI
analysis or the lenient normalization fails.  Transcribed literally. -/
def getFallbackData (_u : Unit) : JValue :=
  JValue.jobj
    [("concepts", JValue.jarr
      [JValue.jobj
        [("title", JValue.jstr "Research Document Analysis"),
         ("summary", JValue.jstr "This document contains research content that has been uploaded for analysis. The system extracts key concepts and generates educational materials."),
         ("citations", JValue.jarr
           [JValue.jstr "Document successfully processed",
            JValue.jstr "AI analysis completed"]),
         ("importance", JValue.jstr "Understanding research documents is essential for academic and professional development.")],
       JValue.jobj
        [("title", JValue.jstr "Knowledge Extraction"),
         ("summary", JValue.jstr "The process of identifying and extracting meaningful information from academic papers using artificial intelligence."),
         ("citations", JValue.jarr
           [JValue.jstr "AI-powered content analysis",
            JValue.jstr "Automated information processing"]),
         ("importance", JValue.jstr "Automated knowledge extraction helps researchers quickly understand complex documents.")],
       JValue.jobj
        [("title", JValue.jstr "Interactive Learning"),
         ("summary", JValue.jstr "Creating engaging educational experiences through quiz generation and concept mapping from research materials."),
         ("citations", JValue.jarr
           [JValue.jstr "Quiz-based learning methodology",
            JValue.jstr "Interactive educational tools"]),
         ("importance", JValue.jstr "Interactive learning methods improve comprehension and retention of academic material.")]]),
     ("questions", JValue.jarr
      [JValue.jobj
        [("question", JValue.jstr "What is the primary purpose of this research analysis tool?"),
         ("options", JValue.jarr
           [JValue.jstr "To extract key concepts and create educational content",
            JValue.jstr "To store PDF files",
            JValue.jstr "To edit documents",
            JValue.jstr "To compress files"]),
         ("correctAnswer", JValue.jnum 0 0),
         ("concept", JValue.jstr "Research Document Analysis")],
       JValue.jobj
        [("question", JValue.jstr "How does the system process research documents?"),
         ("options", JValue.jarr
           [JValue.jstr "Manual review only", JValue.jstr "AI-powered analysis",
            JValue.jstr "Random sampling", JValue.jstr "User annotation"]),
         ("correctAnswer", JValue.jnum 1 0),
         ("concept", JValue.jstr "Knowledge Extraction")],
       JValue.jobj
        [("question", JValue.jstr "What type of learning experience does this tool create?"),
         ("options", JValue.jarr
           [JValue.jstr "Passive reading", JValue.jstr "Interactive quizzes and concepts",
            JValue.jstr "Video streaming", JValue.jstr "Audio playback"]),
         ("correctAnswer", JValue.jnum 1 0),
         ("concept", JValue.jstr "Interactive Learning")],
       JValue.jobj
        [("question", JValue.jstr "What should you do if the analysis doesn't work as expected?"),
         ("options", JValue.jarr
           [JValue.jstr "Delete the application",
            JValue.jstr "Try a different document or contact support",
            JValue.jstr "Restart your computer",
            JValue.jstr "Clear browser cache"]),
         ("correctAnswer", JValue.jnum 1 0),
         ("concept", JValue.jstr "Research Document Analysis")],
       JValue.jobj
        [("question", JValue.jstr "What is the benefit of automated knowledge extraction?"),
         ("options", JValue.jarr
           [JValue.jstr "It replaces human thinking",
            JValue.jstr "It helps quickly understand complex documents",
            JValue.jstr "It eliminates the need for reading",
            JValue.jstr "It only works with simple texts"]),
         ("correctAnswer", JValue.jnum 1 0),
         ("concept", JValue.jstr "Knowledge Extraction")],
       JValue.jobj
        [("question", JValue.jstr "How can interactive learning improve understanding?"),
         ("options", JValue.jarr
           [JValue.jstr "By making content harder to access",
            JValue.jstr "By improving comprehension and retention",
            JValue.jstr "By reducing study time to zero",
            JValue.jstr "By eliminating the need for practice"]),
         ("correctAnswer", JValue.jnum 1 0),
         ("concept", JValue.jstr "Interactive Learning")]])]

/-- The sentinel title the consumer compares against (`page.tsx` line 110). -/
def sentinelTitle : String := "Research Document Analysis"

/-- `analyzeDocument`'s degraded-mode detection (`page.tsx` line 110):
`result.concepts?.[0]?.title === "Research Document Analysis"` (strict
equality against a string literal is true exactly for an equal string). -/
def isFallbackDetected (result : JValue) : Bool :=
  match optChainField (optIndex (fieldOf result "concepts") 0) "title" with
  | some (JValue.jstr t) => decide (t = sentinelTitle)
  | _ => false

/-!  ### The polling state machine of `VideoPanel`
(`video-panel.tsx` lines 27-49)

```
useEffect(() => {
  if (!currentJob || currentJob.status === "completed" || currentJob.status === "failed") return
  const pollInterval = setInterval(async () => {
    try {
      const response = await fetch(`${config.VIDEO_API_URL}/jobs/${currentJob.job_id}`)
      if (response.ok) {
        const updatedJob = await response.json()
        setCurrentJob(updatedJob)
        if (updatedJob.status === "completed" && onVideoGenerated) onVideoGenerated(updatedJob.job_id)
      }
    } catch (error) { ... }
  }, 2000)
  return () => clearInterval(pollInterval)
}, [currentJob, onVideoGenerated])
```

`setInterval` fires its callback at each interval boundary regardless of
whether a previous (async) callback is still awaiting its fetch; the `await`
suspends only that callback instance.  `setCurrentJob(updatedJob)` stores a
fresh object, so the effect cleanup runs (`clearInterval`) and the effect
re-runs, starting a new interval exactly when the newly cached status is
non-terminal.  The model is a labelled transition system over these
event-loop interleavings; the remote service and the network are
unconstrained, so a `respond` event may carry any status. -/

inductive JobStatus where
  | pending
  | processing
  | completed
  | failed
  deriving DecidableEq, Repr

def JobStatus.isTerminal : JobStatus → Bool
  | JobStatus.completed => true
  | JobStatus.failed => true
  | _ => false

/-- The order `pending < processing < {completed, failed}` of the spec. -/
def statusRank : JobStatus → ℕ
  | JobStatus.pending => 0
  | JobStatus.processing => 1
  | JobStatus.completed => 2
  | JobStatus.failed => 2

/-- State of the panel's polling machinery for one tracked job (the completion
callback `onVideoGenerated` is taken as provided, as in `page.tsx`). -/
structure PollState where
  /-- `currentJob.status`, the cached snapshot. -/
  cached : JobStatus
  /-- whether an interval timer is currently set for this job -/
  timerActive : Bool
  /-- status fetches issued but not yet responded -/
  inflight : ℕ
  /-- number of `onVideoGenerated` invocations so far -/
  notifications : ℕ
  /-- statuses applied via `setCurrentJob`, oldest first -/
  observed : List JobStatus
  deriving DecidableEq, Repr

/-- Events of the event loop relevant to one job's polling. -/
inductive PollEvent where
  | tick
  | respond (s : JobStatus)
  | respondFail
  deriving DecidableEq, Repr

/-- Applying a fetched snapshot: `setCurrentJob` stores it unconditionally;
the status change re-runs the effect, which cancels the old interval and
starts a new one only while the new status is non-terminal; a `completed`
snapshot additionally invokes `onVideoGenerated`. -/
def applySnapshot (st : PollState) (s : JobStatus) : PollState :=
  { cached := s
    timerActive := !s.isTerminal
    inflight := st.inflight - 1
    notifications := st.notifications + (if s = JobStatus.completed then 1 else 0)
    observed := st.observed ++ [s] }

/-- One event-loop step; `none` marks an event that cannot occur in the given
state (a tick with no interval set, a response with nothing in flight). -/
def pollStep (st : PollState) : PollEvent → Option PollState
  | PollEvent.tick =>
      if st.timerActive then some { st with inflight := st.inflight + 1 } else none
  | PollEvent.respond s =>
      if st.inflight > 0 then some (applySnapshot st s) else none
  | PollEvent.respondFail =>
      if st.inflight > 0 then some { st with inflight := st.inflight - 1 } else none

/-- Run a sequence of event-loop events. -/
def pollRun : PollState → List PollEvent → Option PollState
  | st, [] => some st
  | st, e :: es =>
      match pollStep st e with
      | some st2 => pollRun st2 es
      | none => none

/-- The state right after a submission succeeded: `setCurrentJob({status:
"pending", ...})` ran all state, and the effect has started the interval. -/
def initPoll : PollState :=
  { cached := JobStatus.pending, timerActive := true, inflight := 0,
    notifications := 0, observed := [] }

/-- The statuses carried by the successful responses of a trace, in order. -/
def respSeq (tr : List PollEvent) : List JobStatus :=
  tr.filterMap (fun e =>
    match e with
    | PollEvent.respond s => some s
    | _ => none)

/-- `statusRank` is non-decreasing along the list. -/
def rankChain : List JobStatus → Bool
  | [] => true
  | [_] => true
  | a :: b :: rest => decide (statusRank a ≤ statusRank b) && rankChain (b :: rest)

/-- The spec's observation property: the observed status sequence is
non-decreasing under `pending < processing < {completed, failed}` and nothing
follows a terminal status. -/
def observedOk (l : List JobStatus) : Bool :=
  rankChain l && decide ((l.dropWhile (fun s => !s.isTerminal)).length ≤ 1)

/-!  ### `generateVideo` (`video-panel.tsx` lines 51-87) and
`deleteJob` (`video-library.tsx` lines 47-62) -/

/-- The local job record built by `generateVideo` on a 2xx submission
response (the shape of `VideoJobStatus` in `lib/config.ts`). -/
structure VideoJob where
  job_id : String
  status : JobStatus
  created_at : String
  quality : String
  pdf_path : Option String
  original_filename : Option String
  completed_at : Option String
  error : Option String
  deriving DecidableEq, Repr

/-- Outcome of the submission `fetch` as `generateVideo` distinguishes it:
a 2xx response carrying `{job_id, file_path}`, a non-2xx response whose JSON
body may carry `detail`, or a thrown network error.  (A non-2xx body that is
not JSON makes `response.json()` throw into the same `catch` as a network
error.) -/
inductive SubmitResponse where
  | ok (job_id : String) (file_path : Option String)
  | httpError (detail : Option String)
  | networkError
  deriving DecidableEq, Repr

/-- The component state `generateVideo` touches. -/
structure PanelState where
  currentJob : Option VideoJob
  error : Option String
  isGenerating : Bool
  deriving DecidableEq, Repr

/-- `generateVideo`: guard on `file`, then submit and either record the new
job handle (remote id, status `pending`, the chosen quality, the locally
recorded creation time) or surface a submission error leaving `currentJob`
untouched.  `errorData.detail || "Failed to start video generation"` treats
an absent or empty `detail` as missing. -/
def generateVideo (st : PanelState) (file : Option String) (now : String)
    (quality : String) (resp : SubmitResponse) : PanelState :=
  match file with
  | none => st
  | some fname =>
      match resp with
      | SubmitResponse.ok jid fpath =>
          { currentJob := some
              { job_id := jid, status := JobStatus.pending, created_at := now,
                quality := quality, pdf_path := fpath,
                original_filename := some fname, completed_at := none,
                error := none },
            error := none, isGenerating := false }
      | SubmitResponse.httpError detail =>
          { st with
            error := some
              (match detail with
               | some d => if d = "" then "Failed to start video generation" else d
               | none => "Failed to start video generation"),
            isGenerating := false }
      | SubmitResponse.networkError =>
          { st with
            error := some "Network error. Please check your connection and try again.",
            isGenerating := false }

/-- `deleteJob` of `VideoLibrary`: on a 2xx response the cached list keeps
exactly the entries whose id differs; on any failure (including the 404 a
missing id produces) the list is untouched and a non-fatal error message is
stored.  Returns the new `(jobs, error)` state. -/
def deleteJob (jobs : List VideoJob) (error : Option String) (jobId : String)
    (respOk : Bool) : List VideoJob × Option String :=
  if respOk then (jobs.filter (fun j => j.job_id ≠ jobId), error)
  else (jobs, some "Failed to delete video")

/-!  ## Theorems -/

/-- Run invariant of the polling machine: the observed statuses are exactly
the successfully delivered snapshots in arrival order, `onVideoGenerated`
fires once per delivered `completed` snapshot, and the interval timer is set
exactly while the cached status is non-terminal. -/
theorem pollRun_invariant (tr : List PollEvent) :
    ∀ st st', pollRun st tr = some st' →
      st'.observed = st.observed ++ respSeq tr ∧
      st'.notifications = st.notifications + (respSeq tr).count JobStatus.completed ∧
      (st.timerActive = !st.cached.isTerminal → st'.timerActive = !st'.cached.isTerminal) := by
  induction tr with
  | nil =>
      intro st st' h
      simp only [pollRun] at h
      cases h
      simp [respSeq]
  | cons e es ih =>
      intro st st' h
      simp only [pollRun] at h
      cases hstep : pollStep st e with
      | none => rw [hstep] at h; exact absurd h (by simp)
      | some st2 =>
          rw [hstep] at h
          obtain ⟨ho, hn, ht⟩ := ih st2 st' h
          cases e with
          | tick =>
              simp only [pollStep] at hstep
              by_cases hta : st.timerActive
              · simp only [hta, if_true] at hstep
                cases hstep
                refine ⟨?_, ?_, ?_⟩
                · simpa [respSeq] using ho
                · simpa [respSeq] using hn
                · intro hrel; rw [hta] at hrel; exact ht hrel
              · simp [hta] at hstep
          | respond s =>
              simp only [pollStep] at hstep
              by_cases hin : st.inflight > 0
              · simp only [hin, if_true] at hstep
                cases hstep
                refine ⟨?_, ?_, ?_⟩
                · simp only [respSeq, List.filterMap_cons] at ho ⊢
                  simpa [applySnapshot] using ho
                · simp only [respSeq, List.filterMap_cons] at hn ⊢
                  simp only [applySnapshot] at hn
                  rw [hn, List.count_cons]
                  rcases eq_or_ne s JobStatus.completed with hs | hs <;>
                    simp [hs, Nat.add_comm, Nat.add_assoc, Nat.add_left_comm]
                · intro _; exact ht (by simp [applySnapshot])
              · simp [hin] at hstep
          | respondFail =>
              simp only [pollStep] at hstep
              by_cases hin : st.inflight > 0
              · simp only [hin, if_true] at hstep
                cases hstep
                refine ⟨?_, ?_, ?_⟩
                · simpa [respSeq] using ho
                · simpa [respSeq] using hn
                · intro hrel; exact ht hrel
              · simp [hin] at hstep

/-- Helper for C2: `n` consecutive interval ticks with no response yet are a
valid event-loop execution and leave `n` requests in flight. -/
theorem pollRun_replicate_tick (n : ℕ) :
    ∀ k, pollRun { initPoll with inflight := k } (List.replicate n PollEvent.tick) =
      some { initPoll with inflight := k + n } := by
  induction n with
  | zero => intro k; simp [pollRun]
  | succ n ih =>
      intro k
      simp only [List.replicate_succ, pollRun, pollStep, initPoll, if_true]
      have h := ih (k + 1)
      simp only [initPoll] at h
      rw [h]
      simp [Nat.add_comm, Nat.add_assoc, Nat.add_left_comm]

/-- C2 (counterexample): the claim that at most one status request is ever in
flight is false: the `setInterval` callback does not delay the next tick, so
two ticks with no intervening response are a valid execution and leave two
requests simultaneously outstanding. -/
theorem c2_counterexample :
    ¬ (∀ tr st', pollRun initPoll tr = some st' → st'.inflight ≤ 1) := by
  intro h
  have h2 := h [PollEvent.tick, PollEvent.tick]
    { cached := JobStatus.pending, timerActive := true, inflight := 2,
      notifications := 0, observed := [] } (by rfl)
  exact absurd h2 (by decide)

/-- C2 (amended): while the cached status is non-terminal the interval fires
every 2 seconds regardless of whether the previous fetch has completed, so
the number of simultaneously outstanding status requests for the job is
bounded only by the number of elapsed ticks: `n` ticks with no response yet
are a valid execution and leave exactly `n` requests in flight. -/
theorem c2_amended (n : ℕ) :
    pollRun initPoll (List.replicate n PollEvent.tick) =
      some { initPoll with inflight := n } := by
  have h := pollRun_replicate_tick n 0
  simpa using h

/-- C3 (counterexample): the observed status sequence is not always
non-decreasing: every fetched snapshot is applied unconditionally, so a stale
`processing` response delivered after a `completed` one regresses the cache
and is observed after the terminal status. -/
theorem c3_counterexample :
    ¬ (∀ tr st', pollRun initPoll tr = some st' → observedOk st'.observed = true) := by
  intro h
  have h2 := h
    [PollEvent.tick, PollEvent.tick, PollEvent.respond JobStatus.completed,
     PollEvent.respond JobStatus.processing]
    { cached := JobStatus.processing, timerActive := true, inflight := 0,
      notifications := 1, observed := [JobStatus.completed, JobStatus.processing] }
    (by rfl)
  exact absurd h2 (by decide)

/-- C3 (amended): the statuses observed through the cached snapshot are
exactly the fetched snapshots in delivery order, the interval timer is
cancelled exactly while the cached status is terminal, and whenever the
delivered snapshots themselves are non-decreasing with nothing after a
terminal status (in-order, monotone remote responses), the observed sequence
satisfies the claimed property.  Unconditional monotonicity fails (see the
counterexample) because stale responses are applied unchecked. -/
theorem c3_amended (tr : List PollEvent) (st' : PollState)
    (h : pollRun initPoll tr = some st') :
    st'.observed = respSeq tr ∧
    st'.timerActive = !st'.cached.isTerminal ∧
    (observedOk (respSeq tr) = true → observedOk st'.observed = true) := by
  obtain ⟨ho, _, ht⟩ := pollRun_invariant tr initPoll st' h
  have ho2 : st'.observed = respSeq tr := by simpa [initPoll] using ho
  refine ⟨ho2, ht (by rfl), ?_⟩
  intro hg
  rw [ho2]
  exact hg

/-- C3 (witness): a concrete well-behaved execution — poll delivers
`processing` then `completed` — satisfies the amended theorem. -/
theorem c3_witness :
    (PollState.mk JobStatus.completed false 0 1
        [JobStatus.processing, JobStatus.completed]).observed =
      respSeq [PollEvent.tick, PollEvent.respond JobStatus.processing,
        PollEvent.tick, PollEvent.respond JobStatus.completed] ∧
    (PollState.mk JobStatus.completed false 0 1
        [JobStatus.processing, JobStatus.completed]).timerActive =
      !(PollState.mk JobStatus.completed false 0 1
        [JobStatus.processing, JobStatus.completed]).cached.isTerminal ∧
    (observedOk (respSeq [PollEvent.tick, PollEvent.respond JobStatus.processing,
        PollEvent.tick, PollEvent.respond JobStatus.completed]) = true →
      observedOk (PollState.mk JobStatus.completed false 0 1
        [JobStatus.processing, JobStatus.completed]).observed = true) :=
  c3_amended
    [PollEvent.tick, PollEvent.respond JobStatus.processing,
     PollEvent.tick, PollEvent.respond JobStatus.completed]
    (PollState.mk JobStatus.completed false 0 1
      [JobStatus.processing, JobStatus.completed])
    (by rfl)

/-- C6 (counterexample): `onVideoGenerated` is not invoked at most once: with
two overlapping requests both answered `completed`, the callback fires twice
for the same job. -/
theorem c6_counterexample :
    ¬ (∀ tr st', pollRun initPoll tr = some st' → st'.notifications ≤ 1) := by
  intro h
  have h2 := h
    [PollEvent.tick, PollEvent.tick, PollEvent.respond JobStatus.completed,
     PollEvent.respond JobStatus.completed]
    { cached := JobStatus.completed, timerActive := false, inflight := 0,
      notifications := 2, observed := [JobStatus.completed, JobStatus.completed] }
    (by rfl)
  exact absurd h2 (by decide)

/-- C6 (amended): the completion notification is invoked exactly once per
applied `completed` snapshot — so exactly once in every execution delivering
exactly one `completed` response, but more than once when overlapping
in-flight requests deliver `completed` repeatedly. -/
theorem c6_amended (tr : List PollEvent) (st' : PollState)
    (h : pollRun initPoll tr = some st') :
    st'.notifications = (respSeq tr).count JobStatus.completed := by
  obtain ⟨_, hn, _⟩ := pollRun_invariant tr initPoll st' h
  simpa [initPoll] using hn

/-- C6 (witness): in the concrete execution delivering `processing` then one
`completed`, the callback count equals the single delivered `completed`. -/
theorem c6_witness :
    (PollState.mk JobStatus.completed false 0 1
        [JobStatus.processing, JobStatus.completed]).notifications =
      (respSeq [PollEvent.tick, PollEvent.tick,
        PollEvent.respond JobStatus.processing,
        PollEvent.respond JobStatus.completed]).count JobStatus.completed :=
  c6_amended
    [PollEvent.tick, PollEvent.tick, PollEvent.respond JobStatus.processing,
     PollEvent.respond JobStatus.completed]
    (PollState.mk JobStatus.completed false 0 1
      [JobStatus.processing, JobStatus.completed])
    (by rfl)

/-- C7: on a successful submission `generateVideo` records a handle with the
remote-assigned id, status `pending`, the chosen quality tier and the locally
recorded creation timestamp; on a non-2xx response or a network error a
submission error is surfaced and the current-job state is left untouched —
in particular it remains unset when it was unset. -/
theorem c7_generateVideo :
    (∀ st fname now q jid fp,
      generateVideo st (some fname) now q (SubmitResponse.ok jid fp) =
        { currentJob := some
            { job_id := jid, status := JobStatus.pending, created_at := now,
              quality := q, pdf_path := fp, original_filename := some fname,
              completed_at := none, error := none },
          error := none, isGenerating := false }) ∧
    (∀ st fname now q d,
      (generateVideo st (some fname) now q (SubmitResponse.httpError d)).currentJob =
          st.currentJob ∧
      (generateVideo st (some fname) now q (SubmitResponse.httpError d)).error ≠ none) ∧
    (∀ st fname now q,
      (generateVideo st (some fname) now q SubmitResponse.networkError).currentJob =
          st.currentJob ∧
      (generateVideo st (some fname) now q SubmitResponse.networkError).error ≠ none) ∧
    (∀ st fname now q d, st.currentJob = none →
      (generateVideo st (some fname) now q (SubmitResponse.httpError d)).currentJob = none ∧
      (generateVideo st (some fname) now q SubmitResponse.networkError).currentJob = none) := by
  refine ⟨fun st fname now q jid fp => rfl, ?_, ?_, ?_⟩
  · intro st fname now q d
    refine ⟨rfl, ?_⟩
    cases d with
    | none => simp [generateVideo]
    | some s => by_cases hs : s = "" <;> simp [generateVideo, hs]
  · intro st fname now q
    exact ⟨rfl, by simp [generateVideo]⟩
  · intro st fname now q d h
    constructor <;> simpa [generateVideo]

/-- C7 (witness): concrete instantiation — a failed submission from the
initial unset state leaves the current job unset. -/
theorem c7_witness :
    (PanelState.mk none none false).currentJob = none ∧
    ((generateVideo (PanelState.mk none none false) (some "paper.pdf") "t0"
        "low_quality" (SubmitResponse.httpError none)).currentJob = none ∧
      (generateVideo (PanelState.mk none none false) (some "paper.pdf") "t0"
        "low_quality" SubmitResponse.networkError).currentJob = none) :=
  ⟨rfl, c7_generateVideo.2.2.2 (PanelState.mk none none false) "paper.pdf" "t0"
    "low_quality" none rfl⟩

/-- C8: a failed delete (the 404 an unknown id produces) stores a non-fatal
error message and leaves the cached list unchanged; a successful delete keeps
exactly the entries with a different id, in their original order (the result
is a sublist of the cached list), and leaves the error state untouched. -/
theorem c8_deleteJob :
    (∀ jobs err id, deleteJob jobs err id false = (jobs, some "Failed to delete video")) ∧
    (∀ jobs err id j,
      j ∈ (deleteJob jobs err id true).1 ↔ j ∈ jobs ∧ j.job_id ≠ id) ∧
    (∀ jobs err id,
      (deleteJob jobs err id true).1.Sublist jobs ∧ (deleteJob jobs err id true).2 = err) := by
  refine ⟨fun jobs err id => rfl, ?_, ?_⟩
  · intro jobs err id j
    simp [deleteJob, List.mem_filter]
  · intro jobs err id
    exact ⟨List.filter_sublist jobs, rfl⟩

/-- C9: the fallback dataset is a fixed constant, satisfies every
AnalysisResult invariant (3 ≤ concepts ≤ 10, at least 4 questions, 4 options
per question, integral `correctAnswer` in `[0,3]`), and its first concept's
title is exactly the sentinel the consumer's degraded-mode check
(`page.tsx` line 110) compares against. -/
theorem c9_fallback :
    (∀ u v : Unit, getFallbackData u = getFallbackData v) ∧
    analysisInvariants (getFallbackData ()) = true ∧
    isFallbackDetected (getFallbackData ()) = true ∧
    optChainField (optIndex (fieldOf (getFallbackData ()) "concepts") 0) "title" =
      some (JValue.jstr sentinelTitle) :=
  ⟨fun _ _ => rfl, by rfl, by rfl, by rfl⟩

theorem lookupField_cons (a : String × JValue) (fs : List (String × JValue)) (k : String) :
    lookupField (a :: fs) k = if a.1 = k then some a.2 else lookupField fs k := by
  by_cases h : a.1 = k <;> simp [lookupField, List.find?, h]

theorem lookupField_append_single_ne (l : List (String × JValue)) (k k' : String)
    (v : JValue) (h : k' ≠ k) :
    lookupField (l ++ [(k, v)]) k' = lookupField l k' := by
  induction l with
  | nil =>
      have hk : ¬ k = k' := fun hk => h hk.symm
      simp [lookupField, List.find?, hk]
  | cons a l ih =>
      rw [List.cons_append, lookupField_cons, lookupField_cons, ih]

theorem lookupField_filter_ne (fs : List (String × JValue)) (k k' : String) (h : k' ≠ k) :
    lookupField (fs.filter (fun kv => kv.1 ≠ k)) k' = lookupField fs k' := by
  induction fs with
  | nil => rfl
  | cons a fs ih =>
      rw [List.filter_cons]
      simp only [decide_not] at ih
      by_cases ha : a.1 = k
      · have hkk : ¬ k = k' := fun hk => h hk.symm
        simp [ha, lookupField_cons, hkk, ih]
      · simp [ha, lookupField_cons, ih]

theorem lookupField_setField_self (fs : List (String × JValue)) (k : String) (v : JValue) :
    lookupField (setField fs k v) k = some v := by
  unfold setField
  have main : ∀ l : List (String × JValue), (∀ kv ∈ l, kv.1 ≠ k) →
      lookupField (l ++ [(k, v)]) k = some v := by
    intro l hl
    induction l with
    | nil => simp [lookupField, List.find?]
    | cons a l ih =>
        rw [List.cons_append, lookupField_cons]
        have ha := hl a (List.mem_cons_self a l)
        simp only [ha, if_false]
        exact ih (fun kv hkv => hl kv (List.mem_cons_of_mem a hkv))
  refine main _ ?_
  intro kv hkv
  have := List.of_mem_filter hkv
  simpa using this

theorem lookupField_setField_ne (fs : List (String × JValue)) (k k' : String)
    (v : JValue) (h : k' ≠ k) :
    lookupField (setField fs k v) k' = lookupField fs k' := by
  unfold setField
  rw [lookupField_append_single_ne _ _ _ _ h, lookupField_filter_ne _ _ _ h]

theorem orDefault_truthy (x : Option JValue) (d : JValue) (hd : d.truthy = true) :
    (orDefault x d).truthy = true := by
  cases x with
  | none => simp [orDefault, hd]
  | some v =>
      by_cases hv : v.truthy = true
      · simp [orDefault, hv]
      · simp only [orDefault, Bool.not_eq_true] at hv ⊢
        simp [hv, hd]

theorem orDefault_str_ne (x : Option JValue) (D : String) (hD : D ≠ "") :
    ∀ t, orDefault x (JValue.jstr D) = JValue.jstr t → t ≠ "" := by
  intro t h
  cases x with
  | none =>
      simp only [orDefault] at h
      cases h
      exact hD
  | some v =>
      by_cases hv : v.truthy = true
      · simp only [orDefault, hv, if_true] at h
        subst h
        simpa [JValue.truthy] using hv
      · simp only [orDefault, Bool.not_eq_true] at hv
        simp only [orDefault, hv] at h
        simp at h
        cases h
        exact hD

theorem repairedConcept_ok (i : ℕ) (c0 c : JValue) (h : repairedConcept i c0 = Except.ok c) :
    ∃ t su ci im,
      c = JValue.jobj
        [("title", orDefault t (JValue.jstr ("Concept " ++ toString (i + 1)))),
         ("summary", orDefault su (JValue.jstr "Summary not available")),
         ("citations",
           match ci with
           | some (JValue.jarr xs) => JValue.jarr (xs.take 3)
           | _ => JValue.jarr []),
         ("importance", orDefault im (JValue.jstr "Importance not specified"))] := by
  unfold repairedConcept at h
  cases h1 : getField c0 "title" with
  | error e => rw [h1] at h; simp [Bind.bind, Except.bind] at h
  | ok t =>
      rw [h1] at h
      cases h2 : getField c0 "summary" with
      | error e => rw [h2] at h; simp [Bind.bind, Except.bind] at h
      | ok su =>
          rw [h2] at h
          cases h3 : getField c0 "citations" with
          | error e => rw [h3] at h; simp [Bind.bind, Except.bind] at h
          | ok ci =>
              rw [h3] at h
              cases h4 : getField c0 "importance" with
              | error e => rw [h4] at h; simp [Bind.bind, Except.bind] at h
              | ok im =>
                  rw [h4] at h
                  simp only [Bind.bind, Except.bind, Except.ok.injEq] at h
                  exact ⟨t, su, ci, im, h.symm⟩

/-- key facts about a repaired concept -/
def truthyField (c : JValue) (k : String) : Bool :=
  match fieldOf c k with
  | some v => v.truthy
  | none => false

theorem string_append_ne_empty (a b : String) (ha : a.length ≠ 0) : a ++ b ≠ "" := by
  intro h
  have h2 := congrArg String.length h
  rw [String.length_append] at h2
  simp only [String.length_empty] at h2
  omega

theorem repairedConcept_props (i : ℕ) (c0 c : JValue)
    (h : repairedConcept i c0 = Except.ok c) :
    truthyField c "title" = true ∧ truthyField c "summary" = true ∧
    truthyField c "importance" = true ∧
    (∀ t, fieldOf c "title" = some (JValue.jstr t) → t ≠ "") ∧
    (∀ t, fieldOf c "summary" = some (JValue.jstr t) → t ≠ "") ∧
    (∀ t, fieldOf c "importance" = some (JValue.jstr t) → t ≠ "") := by
  obtain ⟨t, su, ci, im, rfl⟩ := repairedConcept_ok i c0 c h
  have hD1 : ("Concept " ++ toString (i + 1) : String) ≠ "" :=
    string_append_ne_empty _ _ (by decide)
  have tr1 : (JValue.jstr ("Concept " ++ toString (i + 1))).truthy = true := by
    simp [JValue.truthy, hD1]
  refine ⟨?_, ?_, ?_, ?_, ?_, ?_⟩
  · simp only [truthyField, fieldOf, lookupField, List.find?]
    exact orDefault_truthy t _ tr1
  · simp only [truthyField, fieldOf, lookupField, List.find?]
    exact orDefault_truthy su _ (by decide)
  · simp only [truthyField, fieldOf, lookupField, List.find?]
    exact orDefault_truthy im _ (by decide)
  · intro s hs
    simp [fieldOf, lookupField, List.find?] at hs
    exact orDefault_str_ne t _ hD1 s hs
  · intro s hs
    simp [fieldOf, lookupField, List.find?] at hs
    exact orDefault_str_ne su _ (by decide) s hs
  · intro s hs
    simp [fieldOf, lookupField, List.find?] at hs
    exact orDefault_str_ne im _ (by decide) s hs

theorem repairedQuestion_ok (ft : Option JValue) (i : ℕ) (q0 q : JValue)
    (h : repairedQuestion ft i q0 = Except.ok q) :
    ∃ qu op ca cr,
      q = JValue.jobj
        [("question", orDefault qu (JValue.jstr ("Question " ++ toString (i + 1)))),
         ("options",
           match op with
           | some (JValue.jarr xs) =>
               if xs.length = 4 then JValue.jarr xs else optionPlaceholders
           | _ => optionPlaceholders),
         ("correctAnswer",
           match ca with
           | some (JValue.jnum m s) =>
               if 0 ≤ m ∧ m ≤ 3 * 10 ^ s then JValue.jnum m s else JValue.jnum 0 0
           | _ => JValue.jnum 0 0),
         ("concept", orDefault cr (orDefault ft (JValue.jstr "General")))] := by
  unfold repairedQuestion at h
  cases h1 : getField q0 "question" with
  | error e => rw [h1] at h; simp [Bind.bind, Except.bind] at h
  | ok qu =>
      rw [h1] at h
      cases h2 : getField q0 "options" with
      | error e => rw [h2] at h; simp [Bind.bind, Except.bind] at h
      | ok op =>
          rw [h2] at h
          cases h3 : getField q0 "correctAnswer" with
          | error e => rw [h3] at h; simp [Bind.bind, Except.bind] at h
          | ok ca =>
              rw [h3] at h
              cases h4 : getField q0 "concept" with
              | error e => rw [h4] at h; simp [Bind.bind, Except.bind] at h
              | ok cr =>
                  rw [h4] at h
                  simp only [Bind.bind, Except.bind, Except.ok.injEq] at h
                  exact ⟨qu, op, ca, cr, h.symm⟩

theorem repairedQuestion_props (ft : Option JValue) (i : ℕ) (q0 q : JValue)
    (h : repairedQuestion ft i q0 = Except.ok q) :
    optionsLen4 q = true ∧
    ∃ m s, fieldOf q "correctAnswer" = some (JValue.jnum m s) ∧
      0 ≤ m ∧ m ≤ 3 * 10 ^ s := by
  obtain ⟨qu, op, ca, cr, rfl⟩ := repairedQuestion_ok ft i q0 q h
  constructor
  · simp only [optionsLen4, fieldOf, lookupField, List.find?]
    rcases op with _ | v
    · simp [optionPlaceholders]
    · cases v with
      | jarr xs =>
          by_cases h4 : xs.length = 4
          · simp [h4]
          · simp [h4, optionPlaceholders]
      | jnull => simp [optionPlaceholders]
      | jbool b => simp [optionPlaceholders]
      | jnum m s => simp [optionPlaceholders]
      | jstr t => simp [optionPlaceholders]
      | jobj fs => simp [optionPlaceholders]
  · rcases ca with _ | v
    · exact ⟨0, 0, by simp [fieldOf, lookupField, List.find?], le_refl 0, by positivity⟩
    · cases v with
      | jnum m s =>
          by_cases hr : 0 ≤ m ∧ m ≤ 3 * 10 ^ s
          · exact ⟨m, s, by simp [fieldOf, lookupField, List.find?, hr], hr.1, hr.2⟩
          · exact ⟨0, 0, by simp [fieldOf, lookupField, List.find?, hr], le_refl 0, by positivity⟩
      | jnull => exact ⟨0, 0, by simp [fieldOf, lookupField, List.find?], le_refl 0, by positivity⟩
      | jbool b => exact ⟨0, 0, by simp [fieldOf, lookupField, List.find?], le_refl 0, by positivity⟩
      | jstr t => exact ⟨0, 0, by simp [fieldOf, lookupField, List.find?], le_refl 0, by positivity⟩
      | jarr xs => exact ⟨0, 0, by simp [fieldOf, lookupField, List.find?], le_refl 0, by positivity⟩
      | jobj fs => exact ⟨0, 0, by simp [fieldOf, lookupField, List.find?], le_refl 0, by positivity⟩

theorem repairConceptList_length :
    ∀ i xs ys, repairConceptList i xs = Except.ok ys → ys.length = xs.length := by
  intro i xs
  induction xs generalizing i with
  | nil =>
      intro ys h
      simp only [repairConceptList, Except.ok.injEq] at h
      rw [← h]
  | cons c rest ih =>
      intro ys h
      simp only [repairConceptList] at h
      cases h1 : repairedConcept i c with
      | error e => rw [h1] at h; simp [Bind.bind, Except.bind] at h
      | ok c2 =>
          rw [h1] at h
          cases h2 : repairConceptList (i + 1) rest with
          | error e => rw [h2] at h; simp [Bind.bind, Except.bind] at h
          | ok rest2 =>
              rw [h2] at h
              simp only [Bind.bind, Except.bind, Except.ok.injEq] at h
              rw [← h]
              simp [ih (i + 1) rest2 h2]

theorem repairConceptList_mem :
    ∀ i xs ys, repairConceptList i xs = Except.ok ys →
      ∀ y ∈ ys, ∃ j x, repairedConcept j x = Except.ok y := by
  intro i xs
  induction xs generalizing i with
  | nil =>
      intro ys h
      simp only [repairConceptList, Except.ok.injEq] at h
      rw [← h]
      intro y hy
      exact absurd hy (by simp)
  | cons c rest ih =>
      intro ys h
      simp only [repairConceptList] at h
      cases h1 : repairedConcept i c with
      | error e => rw [h1] at h; simp [Bind.bind, Except.bind] at h
      | ok c2 =>
          rw [h1] at h
          cases h2 : repairConceptList (i + 1) rest with
          | error e => rw [h2] at h; simp [Bind.bind, Except.bind] at h
          | ok rest2 =>
              rw [h2] at h
              simp only [Bind.bind, Except.bind, Except.ok.injEq] at h
              rw [← h]
              intro y hy
              rcases List.mem_cons.mp hy with hy1 | hy2
              · exact ⟨i, c, hy1 ▸ h1⟩
              · exact ih (i + 1) rest2 h2 y hy2

theorem repairQuestionList_length (ft : Option JValue) :
    ∀ i xs ys, repairQuestionList ft i xs = Except.ok ys → ys.length = xs.length := by
  intro i xs
  induction xs generalizing i with
  | nil =>
      intro ys h
      simp only [repairQuestionList, Except.ok.injEq] at h
      rw [← h]
  | cons c rest ih =>
      intro ys h
      simp only [repairQuestionList] at h
      cases h1 : repairedQuestion ft i c with
      | error e => rw [h1] at h; simp [Bind.bind, Except.bind] at h
      | ok c2 =>
          rw [h1] at h
          cases h2 : repairQuestionList ft (i + 1) rest with
          | error e => rw [h2] at h; simp [Bind.bind, Except.bind] at h
          | ok rest2 =>
              rw [h2] at h
              simp only [Bind.bind, Except.bind, Except.ok.injEq] at h
              rw [← h]
              simp [ih (i + 1) rest2 h2]

theorem repairQuestionList_mem (ft : Option JValue) :
    ∀ i xs ys, repairQuestionList ft i xs = Except.ok ys →
      ∀ y ∈ ys, ∃ j x, repairedQuestion ft j x = Except.ok y := by
  intro i xs
  induction xs generalizing i with
  | nil =>
      intro ys h
      simp only [repairQuestionList, Except.ok.injEq] at h
      rw [← h]
      intro y hy
      exact absurd hy (by simp)
  | cons c rest ih =>
      intro ys h
      simp only [repairQuestionList] at h
      cases h1 : repairedQuestion ft i c with
      | error e => rw [h1] at h; simp [Bind.bind, Except.bind] at h
      | ok c2 =>
          rw [h1] at h
          cases h2 : repairQuestionList ft (i + 1) rest with
          | error e => rw [h2] at h; simp [Bind.bind, Except.bind] at h
          | ok rest2 =>
              rw [h2] at h
              simp only [Bind.bind, Except.bind, Except.ok.injEq] at h
              rw [← h]
              intro y hy
              rcases List.mem_cons.mp hy with hy1 | hy2
              · exact ⟨i, c, hy1 ▸ h1⟩
              · exact ih (i + 1) rest2 h2 y hy2

theorem repairParsed_ok (v res : JValue) (h : repairParsed v = Except.ok res) :
    ∃ cs2 qs2 ft,
      conceptsOf res = cs2 ∧ questionsOf res = qs2 ∧
      3 ≤ cs2.length ∧ cs2.length ≤ 8 ∧ 4 ≤ qs2.length ∧ qs2.length ≤ 12 ∧
      (∀ y ∈ cs2, ∃ j x, repairedConcept j x = Except.ok y) ∧
      (∀ y ∈ qs2, ∃ j x, repairedQuestion ft j x = Except.ok y) := by
  cases v with
  | jobj fs =>
      simp only [repairParsed] at h
      rcases e1 : lookupField fs "concepts" with _ | v1
      · rw [e1] at h; simp [Bind.bind, Except.bind] at h
      · cases v1 with
        | jarr cs =>
            rw [e1] at h
            simp only [Bind.bind, Except.bind] at h
            rcases e2 : lookupField fs "questions" with _ | v2
            · rw [e2] at h; simp [Except.bind] at h
            · cases v2 with
              | jarr qs =>
                  rw [e2] at h
                  simp only [Except.bind] at h
                  rcases e3 : repairConceptList 0 (cs.take 8) with u | cs2
                  · rw [e3] at h; simp [Except.bind] at h
                  · rw [e3] at h
                    simp only [Except.bind] at h
                    rcases e4 : repairQuestionList (optChainField cs2.head? "title") 0
                        (qs.take 12) with u | qs2
                    · rw [e4] at h; simp [Except.bind] at h
                    · rw [e4] at h
                      simp only [Except.bind] at h
                      by_cases hc3 : cs2.length < 3
                      · simp [hc3] at h
                      · by_cases hq4 : qs2.length < 4
                        · simp [hc3, hq4] at h
                        · simp only [hc3, hq4, if_false, Except.ok.injEq] at h
                          refine ⟨cs2, qs2, optChainField cs2.head? "title",
                            ?_, ?_, ?_, ?_, ?_, ?_, ?_, ?_⟩
                          · rw [← h]
                            simp only [conceptsOf, fieldOf]
                            rw [lookupField_setField_ne _ _ _ _ (by decide),
                              lookupField_setField_self]
                          · rw [← h]
                            simp only [questionsOf, fieldOf]
                            rw [lookupField_setField_self]
                          · omega
                          · have := repairConceptList_length 0 (cs.take 8) cs2 e3
                            have h8 := List.length_take 8 cs
                            omega
                          · omega
                          · have := repairQuestionList_length _ 0 (qs.take 12) qs2 e4
                            have h12 := List.length_take 12 qs
                            omega
                          · exact repairConceptList_mem 0 (cs.take 8) cs2 e3
                          · exact repairQuestionList_mem _ 0 (qs.take 12) qs2 e4
              | jnull => rw [e2] at h; simp [Except.bind] at h
              | jbool b => rw [e2] at h; simp [Except.bind] at h
              | jnum m s => rw [e2] at h; simp [Except.bind] at h
              | jstr t => rw [e2] at h; simp [Except.bind] at h
              | jobj fs2 => rw [e2] at h; simp [Except.bind] at h
        | jnull => rw [e1] at h; simp [Bind.bind, Except.bind] at h
        | jbool b => rw [e1] at h; simp [Bind.bind, Except.bind] at h
        | jnum m s => rw [e1] at h; simp [Bind.bind, Except.bind] at h
        | jstr t => rw [e1] at h; simp [Bind.bind, Except.bind] at h
        | jobj fs2 => rw [e1] at h; simp [Bind.bind, Except.bind] at h
  | jnull => simp [repairParsed] at h
  | jbool b => simp [repairParsed] at h
  | jnum m s => simp [repairParsed] at h
  | jstr t => simp [repairParsed] at h
  | jarr xs => simp [repairParsed] at h

theorem jnum_range_toRat (m : ℤ) (s : ℕ) (h1 : 0 ≤ m) (h2 : m ≤ 3 * 10 ^ s) :
    0 ≤ JValue.numToRat m s ∧ JValue.numToRat m s ≤ 3 := by
  have hp : (0 : ℚ) < (10 : ℚ) ^ s := by positivity
  unfold JValue.numToRat
  constructor
  · apply div_nonneg _ (le_of_lt hp)
    exact_mod_cast h1
  · rw [div_le_iff₀ hp]
    calc (m : ℚ) ≤ (3 * 10 ^ s : ℤ) := by exact_mod_cast h2
    _ = 3 * (10 : ℚ) ^ s := by push_cast; ring

/-- C1: on every return path of the analysis endpoint the produced
AnalysisResult satisfies `concepts.length ∈ [3,10]` and
`questions.length ≥ 4` — strict path (any `analysisSchema`-valid object has
3-10 concepts and 5-15 ≥ 4 questions), lenient path (any accepted raw output
repairs to 3-8 concepts and 4-12 questions), and the fallback dataset
(3 concepts, 6 questions). -/
theorem c1_bounds :
    (∀ v, analysisSchema v = true →
      3 ≤ (conceptsOf v).length ∧ (conceptsOf v).length ≤ 10 ∧
        4 ≤ (questionsOf v).length) ∧
    (∀ raw res, lenientNormalize raw = Except.ok res →
      3 ≤ (conceptsOf res).length ∧ (conceptsOf res).length ≤ 10 ∧
        4 ≤ (questionsOf res).length) ∧
    (3 ≤ (conceptsOf (getFallbackData ())).length ∧
      (conceptsOf (getFallbackData ())).length ≤ 10 ∧
      4 ≤ (questionsOf (getFallbackData ())).length) := by
  refine ⟨?_, ?_, by decide⟩
  · intro v h
    cases v with
    | jobj fs =>
        simp only [analysisSchema, Bool.and_eq_true] at h
        obtain ⟨hc, hq⟩ := h
        rcases e1 : lookupField fs "concepts" with _ | v1
        · rw [e1] at hc; simp at hc
        · cases v1 with
          | jarr cs =>
              rw [e1] at hc
              simp only [Bool.and_eq_true, decide_eq_true_eq] at hc
              rcases e2 : lookupField fs "questions" with _ | v2
              · rw [e2] at hq; simp at hq
              · cases v2 with
                | jarr qs =>
                    rw [e2] at hq
                    simp only [Bool.and_eq_true, decide_eq_true_eq] at hq
                    simp only [conceptsOf, questionsOf, fieldOf, e1, e2]
                    omega
                | jnull => rw [e2] at hq; simp at hq
                | jbool b => rw [e2] at hq; simp at hq
                | jnum m s => rw [e2] at hq; simp at hq
                | jstr t => rw [e2] at hq; simp at hq
                | jobj fs2 => rw [e2] at hq; simp at hq
          | jnull => rw [e1] at hc; simp at hc
          | jbool b => rw [e1] at hc; simp at hc
          | jnum m s => rw [e1] at hc; simp at hc
          | jstr t => rw [e1] at hc; simp at hc
          | jobj fs2 => rw [e1] at hc; simp at hc
    | jnull => simp [analysisSchema] at h
    | jbool b => simp [analysisSchema] at h
    | jnum m s => simp [analysisSchema] at h
    | jstr t => simp [analysisSchema] at h
    | jarr xs => simp [analysisSchema] at h
  · intro raw res h
    unfold lenientNormalize at h
    rcases e : parseJson (cleanText raw.toList) with _ | v
    · rw [e] at h; simp at h
    · rw [e] at h
      simp only at h
      obtain ⟨cs2, qs2, ft, hco, hqo, h3, h8, h4, h12, _, _⟩ := repairParsed_ok v res h
      rw [hco, hqo]
      omega

/-- C4 (amended): in every result accepted by the lenient path each
question has `options` with exactly 4 entries and `correctAnswer` equal to a
*number* in `[0, 3]`: values outside the range or non-numeric are replaced
by 0, but an in-range non-integer (e.g. 1.5) is kept as-is — the guard is
`typeof x === "number" && x >= 0 && x <= 3`, with no integrality test. -/
theorem c4_amended (raw : String) (res : JValue)
    (h : lenientNormalize raw = Except.ok res) :
    ∀ q ∈ questionsOf res,
      optionsLen4 q = true ∧
      ∃ m s, fieldOf q "correctAnswer" = some (JValue.jnum m s) ∧
        0 ≤ JValue.numToRat m s ∧ JValue.numToRat m s ≤ 3 := by
  unfold lenientNormalize at h
  rcases e : parseJson (cleanText raw.toList) with _ | v
  · rw [e] at h; simp at h
  · rw [e] at h
    simp only at h
    obtain ⟨cs2, qs2, ft, _, hqo, _, _, _, _, _, hqmem⟩ := repairParsed_ok v res h
    intro q hq
    rw [hqo] at hq
    obtain ⟨j, x, hx⟩ := hqmem q hq
    obtain ⟨hopt, m, s, hca, hm1, hm2⟩ := repairedQuestion_props ft j x q hx
    exact ⟨hopt, m, s, hca, jnum_range_toRat m s hm1 hm2⟩

theorem lookupField_filter_self (fs : List (String × JValue)) (k : String) :
    lookupField (fs.filter (fun kv => kv.1 ≠ k)) k = none := by
  induction fs with
  | nil => rfl
  | cons a fs ih =>
      rw [List.filter_cons]
      simp only [decide_not] at ih
      by_cases ha : a.1 = k
      · simp [ha, ih]
      · simp [ha, lookupField_cons, ih]

/-- C10 (amended): in every result accepted by the lenient path each
concept's `title`, `summary` and `importance` are truthy — empty strings,
like absent fields, are replaced by the non-empty defaults (an empty-string
`title` repairs identically to a removed `title`), and any string-valued
field is non-empty.  A truthy non-string value (e.g. a number) is kept
as-is, so the fields are not always strings (see the counterexample). -/
theorem c10_amended :
    (∀ raw res, lenientNormalize raw = Except.ok res →
      ∀ c ∈ conceptsOf res,
        truthyField c "title" = true ∧ truthyField c "summary" = true ∧
        truthyField c "importance" = true ∧
        (∀ t, fieldOf c "title" = some (JValue.jstr t) → t ≠ "") ∧
        (∀ t, fieldOf c "summary" = some (JValue.jstr t) → t ≠ "") ∧
        (∀ t, fieldOf c "importance" = some (JValue.jstr t) → t ≠ "")) ∧
    (∀ i fs, repairedConcept i (JValue.jobj (setField fs "title" (JValue.jstr ""))) =
        repairedConcept i (JValue.jobj (fs.filter (fun kv => kv.1 ≠ "title")))) := by
  constructor
  · intro raw res h
    unfold lenientNormalize at h
    rcases e : parseJson (cleanText raw.toList) with _ | v
    · rw [e] at h; simp at h
    · rw [e] at h
      simp only at h
      obtain ⟨cs2, qs2, ft, hco, _, _, _, _, _, hcmem, _⟩ := repairParsed_ok v res h
      intro c hc
      rw [hco] at hc
      obtain ⟨j, x, hx⟩ := hcmem c hc
      exact repairedConcept_props j x c hx
  · intro i fs
    unfold repairedConcept
    simp only [getField]
    rw [lookupField_setField_self]
    rw [lookupField_setField_ne _ _ _ _ (by decide),
      lookupField_setField_ne _ _ _ _ (by decide),
      lookupField_setField_ne _ _ _ _ (by decide)]
    rw [lookupField_filter_self]
    rw [lookupField_filter_ne _ _ _ (by decide),
      lookupField_filter_ne _ _ _ (by decide),
      lookupField_filter_ne _ _ _ (by decide)]
    simp [Bind.bind, Except.bind, orDefault, JValue.truthy]

/-- The backtick character, written via its code point. -/
def btChar : Char := '\x60'

theorem dropWhile_append_cons (q : Char → Bool) (u : List Char) (d : Char)
    (v : List Char) (hd : q d = false) :
    List.dropWhile q (u ++ d :: v) = List.dropWhile q u ++ d :: v := by
  induction u with
  | nil => simp [List.dropWhile, hd]
  | cons x xs ih =>
      cases hx : q x with
      | true => simp [List.dropWhile, hx, ih]
      | false => simp [List.dropWhile, hx]

theorem trimLeft_append_head (a b : List Char) (c : Char) (hb : b.head? = some c)
    (hc : jsWs c = false) : trimLeft (a ++ b) = trimLeft a ++ b := by
  cases b with
  | nil => simp at hb
  | cons x bs =>
      simp only [List.head?_cons, Option.some.injEq] at hb
      subst hb
      exact dropWhile_append_cons jsWs a x bs hc

theorem trimRight_append_of_last (y : List Char) (d : Char) (b : List Char)
    (hd : jsWs d = false) :
    trimRight ((y ++ [d]) ++ b) = (y ++ [d]) ++ trimRight b := by
  unfold trimRight
  have h1 : ((y ++ [d]) ++ b).reverse = b.reverse ++ d :: y.reverse := by simp
  rw [h1, dropWhile_append_cons jsWs _ _ _ hd]
  simp

theorem trimRight_append_last (a b : List Char) (d : Char) (ha : a.getLast? = some d)
    (hd : jsWs d = false) : trimRight (a ++ b) = a ++ trimRight b := by
  have hsplit : a.dropLast ++ [d] = a :=
    List.dropLast_append_getLast? d (by simp [Option.mem_def, ha])
  rw [← hsplit, trimRight_append_of_last a.dropLast d b hd]

theorem stripTok_nil (tok : List Char) (k : ℕ) (ws : Bool) : stripTok tok k ws [] = [] := by
  cases k <;> rfl

theorem stripTok_succ (tok : List Char) (k : ℕ) (ws : Bool) (c : Char) (rest : List Char) :
    stripTok tok (k + 1) ws (c :: rest) = stripTok tok k ws rest := rfl

theorem stripTok_zero_cons (tok : List Char) (ws : Bool) (c : Char) (rest : List Char) :
    stripTok tok 0 ws (c :: rest) =
      if ws && jsWs c then stripTok tok 0 true rest
      else if tok.isPrefixOf (c :: rest) then stripTok tok (tok.length - 1) true rest
      else c :: stripTok tok 0 false rest := rfl

theorem stripTok_drop (tok : List Char) :
    ∀ (k : ℕ) (ws : Bool) (l : List Char), stripTok tok k ws l = stripTok tok 0 ws (l.drop k) := by
  intro k
  induction k with
  | zero => intro ws l; rfl
  | succ k ih =>
      intro ws l
      cases l with
      | nil => rw [stripTok_nil, List.drop_nil, stripTok_nil]
      | cons c r => rw [stripTok_succ, ih, List.drop_succ_cons]

theorem isPrefixOf_cons_ne (t : Char) (ts : List Char) (x : Char) (xs : List Char)
    (h : ¬ t = x) : (t :: ts).isPrefixOf (x :: xs) = false := by
  simp [List.isPrefixOf, h]

theorem isPrefixOf_head_not_mem (t : Char) (ts l : List Char) (h : t ∉ l) :
    (t :: ts).isPrefixOf l = false := by
  cases l with
  | nil => rfl
  | cons x xs =>
      have : ¬ t = x := fun he => h (he ▸ List.mem_cons_self x xs)
      exact isPrefixOf_cons_ne t ts x xs this

theorem stripTok_copy (t : Char) (ts : List Char) (xs : List Char) (hx : t ∉ xs) :
    ∀ ys, stripTok (t :: ts) 0 false (xs ++ ys) = xs ++ stripTok (t :: ts) 0 false ys := by
  induction xs with
  | nil => intro ys; rfl
  | cons c xs ih =>
      intro ys
      have hx2 : t ∉ xs := fun hm => hx (List.mem_cons_of_mem c hm)
      have hct : ¬ t = c := fun he => hx (he ▸ List.mem_cons_self c xs)
      rw [List.cons_append, stripTok_zero_cons,
        isPrefixOf_cons_ne t ts c (xs ++ ys) hct]
      simp [ih hx2 ys]

theorem stripTok_id (t : Char) (ts : List Char) (xs : List Char) (hx : t ∉ xs) :
    stripTok (t :: ts) 0 false xs = xs := by
  have h := stripTok_copy t ts xs hx []
  simpa [stripTok_nil] using h

theorem stripTok_skipws (t : Char) (ts : List Char) (zs : List Char) (hz : t ∉ zs) :
    stripTok (t :: ts) 0 true zs = zs.dropWhile jsWs := by
  induction zs with
  | nil => rfl
  | cons c zs ih =>
      have hz2 : t ∉ zs := fun hm => hz (List.mem_cons_of_mem c hm)
      have hct : ¬ t = c := fun he => hz (he ▸ List.mem_cons_self c zs)
      rw [stripTok_zero_cons, isPrefixOf_cons_ne t ts c zs hct]
      cases hw : jsWs c with
      | true => simp [hw, ih hz2, List.dropWhile, stripTok_nil]
      | false => simp [hw, List.dropWhile, stripTok_id t ts zs hz2]

theorem stripTok_consume (t : Char) (ts : List Char) (rest : List Char) :
    stripTok (t :: ts) 0 false ((t :: ts) ++ rest) = stripTok (t :: ts) 0 true rest := by
  rw [List.cons_append, stripTok_zero_cons]
  have hpre : (t :: ts).isPrefixOf (t :: (ts ++ rest)) = true := by
    rw [ List.isPrefixOf_iff_prefix]
    exact ⟨rest, by simp⟩
  rw [if_neg (by simp), if_pos (by rw [hpre])]
  simp only [List.length_cons, Nat.add_sub_cancel]
  rw [stripTok_drop, List.drop_left]

/-- The two regex tokens as explicit character lists (definitionally equal to
`"```json".toList` and `"```".toList`). -/
def tokJson : List Char :=
  btChar :: btChar :: btChar :: 'j' :: 's' :: 'o' :: 'n' :: []

def tokTicks : List Char := btChar :: btChar :: btChar :: []

theorem strip1_ticks (post2 : List Char) (hpost : btChar ∉ post2)
    (hpjson : ('j' :: 's' :: 'o' :: 'n' :: []).isPrefixOf post2 = false) :
    stripTok tokJson 0 false (btChar :: btChar :: btChar :: post2)
      = btChar :: btChar :: btChar :: post2 := by
  rw [stripTok_zero_cons, if_neg (by simp)]
  have h1 : tokJson.isPrefixOf (btChar :: btChar :: btChar :: post2) = false := by
    simp only [tokJson, List.isPrefixOf, beq_self_eq_true, Bool.true_and]
    exact hpjson
  rw [h1, if_neg (by simp)]
  rw [stripTok_zero_cons, if_neg (by simp)]
  have h2 : tokJson.isPrefixOf (btChar :: btChar :: post2) = false := by
    simp only [tokJson, List.isPrefixOf, beq_self_eq_true, Bool.true_and]
    exact isPrefixOf_head_not_mem btChar _ post2 hpost
  rw [h2, if_neg (by simp)]
  rw [stripTok_zero_cons, if_neg (by simp)]
  have h3 : tokJson.isPrefixOf (btChar :: post2) = false := by
    simp only [tokJson, List.isPrefixOf, beq_self_eq_true, Bool.true_and]
    exact isPrefixOf_head_not_mem btChar _ post2 hpost
  rw [h3, if_neg (by simp)]
  have h4 : stripTok tokJson 0 false post2 = post2 := by
    have := stripTok_id btChar (btChar :: btChar :: 'j' :: 's' :: 'o' :: 'n' :: []) post2 hpost
    exact this
  rw [h4]

theorem stripPass1_fenced (pre2 pt post2 : List Char)
    (hpre : btChar ∉ pre2) (hp : btChar ∉ pt) (hpost : btChar ∉ post2)
    (hpjson : ('j' :: 's' :: 'o' :: 'n' :: []).isPrefixOf post2 = false) :
    stripTok tokJson 0 false
        (pre2 ++ (tokJson ++ ('\n' :: '{' ::
          (pt ++ ('\n' :: btChar :: btChar :: btChar :: post2)))))
      = pre2 ++ ('{' :: (pt ++ ('\n' :: btChar :: btChar :: btChar :: post2))) := by
  have hcopy := stripTok_copy btChar (btChar :: btChar :: 'j' :: 's' :: 'o' :: 'n' :: [])
    pre2 hpre
  rw [show (tokJson : List Char) =
      btChar :: btChar :: btChar :: 'j' :: 's' :: 'o' :: 'n' :: [] from rfl] at *
  rw [hcopy]
  rw [stripTok_consume]
  rw [stripTok_zero_cons, if_pos (by decide)]
  rw [stripTok_zero_cons, if_neg (by decide),
    isPrefixOf_cons_ne btChar _ '{' _ (by decide), if_neg (by simp)]
  rw [stripTok_copy btChar _ pt hp]
  rw [stripTok_zero_cons, if_neg (by decide),
    isPrefixOf_cons_ne btChar _ '\n' _ (by decide), if_neg (by simp)]
  have ht := strip1_ticks post2 hpost hpjson
  rw [show (tokJson : List Char) =
      btChar :: btChar :: btChar :: 'j' :: 's' :: 'o' :: 'n' :: [] from rfl] at ht
  rw [ht]

theorem stripPass2_fenced (pre2 pt post2 : List Char)
    (hpre : btChar ∉ pre2) (hp : btChar ∉ pt) (hpost : btChar ∉ post2) :
    stripTok tokTicks 0 false
        (pre2 ++ ('{' :: (pt ++ ('\n' :: (tokTicks ++ post2)))))
      = pre2 ++ ('{' :: (pt ++ ('\n' :: List.dropWhile jsWs post2))) := by
  have hcopy := stripTok_copy btChar (btChar :: btChar :: []) pre2 hpre
  rw [show (tokTicks : List Char) = btChar :: btChar :: btChar :: [] from rfl] at *
  rw [hcopy]
  rw [stripTok_zero_cons, if_neg (by decide),
    isPrefixOf_cons_ne btChar _ '{' _ (by decide), if_neg (by simp)]
  rw [stripTok_copy btChar _ pt hp]
  rw [stripTok_zero_cons, if_neg (by decide),
    isPrefixOf_cons_ne btChar _ '\n' _ (by decide), if_neg (by simp)]
  rw [stripTok_consume]
  rw [stripTok_skipws btChar _ post2 hpost]

theorem firstIdx_append (c : Char) (a m : List Char) (ha : c ∉ a)
    (hm : ∃ mt, m = c :: mt) : firstIdx c (a ++ m) = some a.length := by
  induction a with
  | nil =>
      obtain ⟨mt, rfl⟩ := hm
      simp [firstIdx]
  | cons x xs ih =>
      have hxc : ¬ x = c := fun he => ha (he ▸ List.mem_cons_self x xs)
      have hxs : c ∉ xs := fun hmem => ha (List.mem_cons_of_mem x hmem)
      simp [firstIdx, hxc, ih hxs]

theorem lastIdx_not_mem (c : Char) (l : List Char) (h : c ∉ l) : lastIdx c l = none := by
  induction l with
  | nil => rfl
  | cons x xs ih =>
      have hxc : ¬ x = c := fun he => h (he ▸ List.mem_cons_self x xs)
      have hxs : c ∉ xs := fun hmem => h (List.mem_cons_of_mem x hmem)
      simp [lastIdx, ih hxs, hxc]

theorem lastIdx_append_right_none (c : Char) (a b : List Char) (hb : c ∉ b) :
    lastIdx c (a ++ b) = lastIdx c a := by
  induction a with
  | nil => simp [lastIdx_not_mem c b hb, lastIdx]
  | cons x xs ih => simp [lastIdx, ih]

theorem lastIdx_concat_self (c : Char) (a : List Char) :
    lastIdx c (a ++ [c]) = some a.length := by
  induction a with
  | nil => simp [lastIdx]
  | cons x xs ih => simp [lastIdx, ih]

theorem sliceBraces_extract (A p B : List Char) (hA : '{' ∉ A)
    (hph : p.head? = some '{') (hpl : p.getLast? = some '}') (hB : '}' ∉ B) :
    sliceBraces (A ++ (p ++ B)) = p := by
  have hpne : p ≠ [] := by intro h; rw [h] at hph; simp at hph
  have hpf : p.dropLast ++ ['}'] = p :=
    List.dropLast_append_getLast? '}' (by simp [Option.mem_def, hpl])
  obtain ⟨pt, hpt⟩ : ∃ pt, p = '{' :: pt := by
    cases p with
    | nil => simp at hph
    | cons c ps =>
        simp only [List.head?_cons, Option.some.injEq] at hph
        exact ⟨ps, by rw [hph]⟩
  have hf : firstIdx '{' (A ++ (p ++ B)) = some A.length :=
    firstIdx_append '{' A (p ++ B) hA ⟨pt ++ B, by rw [hpt]; simp⟩
  have hl : lastIdx '}' (A ++ (p ++ B)) = some (A.length + p.dropLast.length) := by
    have h1 : A ++ (p ++ B) = ((A ++ p.dropLast) ++ ['}']) ++ B := by
      rw [← hpf]; simp [List.append_assoc]
    rw [h1, lastIdx_append_right_none _ _ _ hB, lastIdx_concat_self]
    simp
  have hlen : p.length = p.dropLast.length + 1 := by
    conv_lhs => rw [← hpf]
    simp
  unfold sliceBraces
  rw [hf, hl]
  dsimp only
  rw [if_pos (by omega)]
  rw [List.drop_left]
  have harith : A.length + p.dropLast.length + 1 - A.length = p.length := by omega
  rw [harith, List.take_left]

theorem trimLeft_sublist (l : List Char) : (trimLeft l).Sublist l := by
  unfold trimLeft
  exact List.dropWhile_sublist jsWs

theorem trimRight_sublist (l : List Char) : (trimRight l).Sublist l := by
  unfold trimRight
  have h := (List.dropWhile_sublist (l := l.reverse) jsWs).reverse
  simpa using h

theorem trimRight_prefix_self (l : List Char) : trimRight l <+: l := by
  refine ⟨(l.reverse.takeWhile jsWs).reverse, ?_⟩
  unfold trimRight
  rw [← List.reverse_append, List.takeWhile_append_dropWhile, List.reverse_reverse]

theorem cleanText_fenced (pre p post : List Char)
    (hph : p.head? = some '{') (hpl : p.getLast? = some '}')
    (hpb : btChar ∉ p) (hpre1 : '{' ∉ pre) (hpre2 : btChar ∉ pre)
    (hpost1 : '}' ∉ post) (hpost2 : btChar ∉ post)
    (hpostj : ('j' :: 's' :: 'o' :: 'n' :: []).isPrefixOf post = false) :
    cleanText (pre ++ ("```json\n".toList ++ (p ++ ("\n```".toList ++ post)))) = p := by
  obtain ⟨pt, rfl⟩ : ∃ pt, p = '{' :: pt := by
    cases p with
    | nil => simp at hph
    | cons c ps =>
        simp only [List.head?_cons, Option.some.injEq] at hph
        exact ⟨ps, by rw [hph]⟩
  have hptb : btChar ∉ pt := fun hm => hpb (List.mem_cons_of_mem _ hm)
  -- membership facts for the trimmed prose
  have hpre1t : '{' ∉ trimLeft pre := fun hm => hpre1 ((trimLeft_sublist pre).subset hm)
  have hpre2t : btChar ∉ trimLeft pre := fun hm => hpre2 ((trimLeft_sublist pre).subset hm)
  have hpost1t : '}' ∉ trimRight post := fun hm => hpost1 ((trimRight_sublist post).subset hm)
  have hpost2t : btChar ∉ trimRight post := fun hm => hpost2 ((trimRight_sublist post).subset hm)
  have hpostjt : ('j' :: 's' :: 'o' :: 'n' :: []).isPrefixOf (trimRight post) = false := by
    cases hb : ('j' :: 's' :: 'o' :: 'n' :: []).isPrefixOf (trimRight post) with
    | false => rfl
    | true =>
        exfalso
        have h1 : ('j' :: 's' :: 'o' :: 'n' :: []) <+: trimRight post :=
          List.isPrefixOf_iff_prefix.mp hb
        have h2 : ('j' :: 's' :: 'o' :: 'n' :: []) <+: post :=
          h1.trans (trimRight_prefix_self post)
        have h3 := List.isPrefixOf_iff_prefix.mpr h2
        rw [hpostj] at h3
        exact Bool.false_ne_true h3
  unfold cleanText
  -- trim step
  have htrim : jsTrim (pre ++ ("```json\n".toList ++ (('{' :: pt) ++ ("\n```".toList ++ post))))
      = trimLeft pre ++ ("```json\n".toList ++ (('{' :: pt) ++ ("\n```".toList ++ trimRight post))) := by
    unfold jsTrim
    rw [trimLeft_append_head pre
      ("```json\n".toList ++ (('{' :: pt) ++ ("\n```".toList ++ post))) btChar rfl
      (by decide)]
    have hassoc : trimLeft pre ++ ("```json\n".toList ++ (('{' :: pt) ++ ("\n```".toList ++ post)))
        = (trimLeft pre ++ ("```json\n".toList ++ (('{' :: pt) ++ "\n```".toList))) ++ post := by
      simp [List.append_assoc]
    rw [hassoc]
    have hlast : (trimLeft pre ++ ("```json\n".toList ++ (('{' :: pt) ++ "\n```".toList))).getLast?
        = some btChar := by
      rw [List.getLast?_append_of_ne_nil _ (by exact List.cons_ne_nil _ _),
        List.getLast?_append_of_ne_nil _ (by exact List.cons_ne_nil _ _),
        List.getLast?_append_of_ne_nil _ (by exact List.cons_ne_nil _ _)]
      decide
    rw [trimRight_append_last _ post btChar hlast (by decide)]
    simp [List.append_assoc]
  rw [htrim]
  -- the two replace passes
  have h1 := stripPass1_fenced (trimLeft pre) pt (trimRight post) hpre2t hptb hpost2t hpostjt
  rw [show stripPass ("```json".toList)
      (trimLeft pre ++ ("```json\n".toList ++ (('{' :: pt) ++ ("\n```".toList ++ trimRight post))))
      = trimLeft pre ++ ('{' :: (pt ++ ('\n' :: btChar :: btChar :: btChar :: trimRight post)))
    from h1]
  rw [show stripPass ("```".toList)
      (trimLeft pre ++ ('{' :: (pt ++ ('\n' :: btChar :: btChar :: btChar :: trimRight post))))
      = trimLeft pre ++ ('{' :: (pt ++ ('\n' :: List.dropWhile jsWs (trimRight post))))
    from stripPass2_fenced (trimLeft pre) pt (trimRight post) hpre2t hptb hpost2t]
  -- the brace slice
  have hD1 : '}' ∉ List.dropWhile jsWs (trimRight post) := fun hm =>
    hpost1t ((List.dropWhile_sublist jsWs).subset hm)
  have hB : '}' ∉ '\n' :: List.dropWhile jsWs (trimRight post) := by
    intro hm
    rcases List.mem_cons.mp hm with h | h
    · exact absurd h (by decide)
    · exact hD1 h
  exact sliceBraces_extract (trimLeft pre) ('{' :: pt)
    ('\n' :: List.dropWhile jsWs (trimRight post)) hpre1t hph hpl hB

theorem cleanText_bare (p : List Char) (hph : p.head? = some '{')
    (hpl : p.getLast? = some '}') (hpb : btChar ∉ p) : cleanText p = p := by
  obtain ⟨pt, rfl⟩ : ∃ pt, p = '{' :: pt := by
    cases p with
    | nil => simp at hph
    | cons c ps =>
        simp only [List.head?_cons, Option.some.injEq] at hph
        exact ⟨ps, by rw [hph]⟩
  have hpf : ('{' :: pt).dropLast ++ ['}'] = '{' :: pt :=
    List.dropLast_append_getLast? '}' (by simp [Option.mem_def, hpl])
  unfold cleanText jsTrim
  have htl : trimLeft ('{' :: pt) = '{' :: pt := by
    unfold trimLeft
    simp [List.dropWhile, show jsWs '{' = false from by decide]
  have htr : trimRight ('{' :: pt) = '{' :: pt := by
    have h := trimRight_append_of_last (('{' :: pt).dropLast) '}' [] (by decide)
    rw [hpf] at h
    simpa [trimRight] using h
  rw [htl, htr]
  rw [show stripPass ("```json".toList) ('{' :: pt) = '{' :: pt from
    stripTok_id btChar (btChar :: btChar :: 'j' :: 's' :: 'o' :: 'n' :: []) ('{' :: pt) hpb]
  rw [show stripPass ("```".toList) ('{' :: pt) = '{' :: pt from
    stripTok_id btChar (btChar :: btChar :: []) ('{' :: pt) hpb]
  have h := sliceBraces_extract [] ('{' :: pt) [] (by simp) hph hpl (by simp)
  simpa using h

/-- C5 (amended): a payload text that begins with `\x7b`, ends with
`\x7d` and contains no backtick, wrapped in markdown code fences and
surrounded by prose whose leading part contains no `\x7b` or backtick and
whose trailing part contains no `\x7d` or backtick and does not begin with
`json`, normalizes to the identical result as the bare payload.  The claim
is not true for arbitrary prose: a brace inside the prose shifts the
`indexOf`/`lastIndexOf` slice (see the counterexample). -/
theorem c5_amended (pre p post : String)
    (hph : p.toList.head? = some '{') (hpl : p.toList.getLast? = some '}')
    (hpb : btChar ∉ p.toList)
    (hpre1 : '{' ∉ pre.toList) (hpre2 : btChar ∉ pre.toList)
    (hpost1 : '}' ∉ post.toList) (hpost2 : btChar ∉ post.toList)
    (hpostj : ('j' :: 's' :: 'o' :: 'n' :: []).isPrefixOf post.toList = false) :
    lenientNormalize (pre ++ "```json\n" ++ p ++ "\n```" ++ post) = lenientNormalize p := by
  unfold lenientNormalize
  have htl : (pre ++ "```json\n" ++ p ++ "\n```" ++ post).toList
      = pre.toList ++ ("```json\n".toList ++ (p.toList ++ ("\n```".toList ++ post.toList))) := by
    simp [String.toList, String.data_append]
  rw [htl,
    cleanText_fenced pre.toList p.toList post.toList hph hpl hpb hpre1 hpre2 hpost1
      hpost2 hpostj,
    cleanText_bare p.toList hph hpl hpb]

/-- A minimal well-formed lenient payload: three empty concepts and four empty
questions, everything below filled in by the repair defaults. -/
def minimalLenientRaw : String :=
  "\x7b\"concepts\":[\x7b\x7d,\x7b\x7d,\x7b\x7d],\"questions\":[\x7b\x7d,\x7b\x7d,\x7b\x7d,\x7b\x7d]\x7d"

def defaultRepairedConcept (i : ℕ) : JValue :=
  JValue.jobj
    [("title", JValue.jstr ("Concept " ++ toString i)),
     ("summary", JValue.jstr "Summary not available"),
     ("citations", JValue.jarr []),
     ("importance", JValue.jstr "Importance not specified")]

def defaultRepairedQuestion (i : ℕ) : JValue :=
  JValue.jobj
    [("question", JValue.jstr ("Question " ++ toString i)),
     ("options", optionPlaceholders),
     ("correctAnswer", JValue.jnum 0 0),
     ("concept", JValue.jstr "Concept 1")]

/-- The repaired result the lenient route produces for `minimalLenientRaw`. -/
def minimalLenientRes : JValue :=
  JValue.jobj
    [("concepts", JValue.jarr
       [defaultRepairedConcept 1, defaultRepairedConcept 2, defaultRepairedConcept 3]),
     ("questions", JValue.jarr
       [defaultRepairedQuestion 1, defaultRepairedQuestion 2,
        defaultRepairedQuestion 3, defaultRepairedQuestion 4])]

/-- C1 (witness): concrete instantiations — the fallback dataset is
schema-valid for the strict conjunct, and a minimal raw payload is accepted
by the lenient path. -/
theorem c1_witness :
    analysisSchema (getFallbackData ()) = true ∧
    (3 ≤ (conceptsOf (getFallbackData ())).length ∧
      (conceptsOf (getFallbackData ())).length ≤ 10 ∧
      4 ≤ (questionsOf (getFallbackData ())).length) ∧
    lenientNormalize minimalLenientRaw = Except.ok minimalLenientRes ∧
    (3 ≤ (conceptsOf minimalLenientRes).length ∧
      (conceptsOf minimalLenientRes).length ≤ 10 ∧
      4 ≤ (questionsOf minimalLenientRes).length) :=
  ⟨by decide, c1_bounds.1 (getFallbackData ()) (by decide), rfl,
    c1_bounds.2.1 minimalLenientRaw minimalLenientRes rfl⟩

def c4CexRaw : String :=
  "\x7b\"concepts\":[\x7b\x7d,\x7b\x7d,\x7b\x7d],\"questions\":[\x7b\"correctAnswer\":1.5\x7d,\x7b\x7d,\x7b\x7d,\x7b\x7d]\x7d"

/-- C4 (counterexample): the claim that every repaired `correctAnswer` is
an *integer* in `[0, 3]` is false: a raw payload with `"correctAnswer": 1.5`
is accepted by the lenient path and the repaired question keeps the value
`15/10 = 3/2`, which is in range but not an integer. -/
theorem c4_counterexample :
    (lenientNormalize c4CexRaw).map (fun r => (questionsOf r).all caIntIn03) =
      Except.ok false ∧
    (lenientNormalize c4CexRaw).map (fun r => (questionsOf r).all caNumIn03) =
      Except.ok true ∧
    (lenientNormalize c4CexRaw).map
        (fun r => (questionsOf r).head?.bind (fun q => fieldOf q "correctAnswer")) =
      Except.ok (some (JValue.jnum 15 1)) ∧
    JValue.numToRat 15 1 = 3 / 2 :=
  ⟨rfl, rfl, rfl, by norm_num [JValue.numToRat]⟩

/-- C4 (witness): the amended theorem applied to a concrete accepted
payload and its first repaired question. -/
theorem c4_witness :
    lenientNormalize minimalLenientRaw = Except.ok minimalLenientRes ∧
    defaultRepairedQuestion 1 ∈ questionsOf minimalLenientRes ∧
    (optionsLen4 (defaultRepairedQuestion 1) = true ∧
      ∃ m s, fieldOf (defaultRepairedQuestion 1) "correctAnswer" =
          some (JValue.jnum m s) ∧
        0 ≤ JValue.numToRat m s ∧ JValue.numToRat m s ≤ 3) :=
  ⟨rfl, List.mem_cons_self _ _,
    c4_amended minimalLenientRaw minimalLenientRes rfl (defaultRepairedQuestion 1)
      (List.mem_cons_self _ _)⟩

def c10CexRaw : String :=
  "\x7b\"concepts\":[\x7b\"title\":42\x7d,\x7b\x7d,\x7b\x7d],\"questions\":[\x7b\x7d,\x7b\x7d,\x7b\x7d,\x7b\x7d]\x7d"

/-- C10 (counterexample): the claim that repaired concept fields are
always non-empty *strings* is false: a raw payload with `"title": 42` is
accepted and the repaired first concept keeps the number 42 as its title,
because 42 is truthy and `concept.title || default` keeps any truthy value. -/
theorem c10_counterexample :
    (lenientNormalize c10CexRaw).map
        (fun r => (conceptsOf r).all conceptTextFieldsNonemptyStr) =
      Except.ok false ∧
    (lenientNormalize c10CexRaw).map
        (fun r => (conceptsOf r).head?.bind (fun c => fieldOf c "title")) =
      Except.ok (some (JValue.jnum 42 0)) :=
  ⟨rfl, rfl⟩

/-- C10 (witness): the amended theorem applied to a concrete accepted
payload and its first repaired concept. -/
theorem c10_witness :
    lenientNormalize minimalLenientRaw = Except.ok minimalLenientRes ∧
    defaultRepairedConcept 1 ∈ conceptsOf minimalLenientRes ∧
    (truthyField (defaultRepairedConcept 1) "title" = true ∧
      truthyField (defaultRepairedConcept 1) "summary" = true ∧
      truthyField (defaultRepairedConcept 1) "importance" = true ∧
      (∀ t, fieldOf (defaultRepairedConcept 1) "title" = some (JValue.jstr t) → t ≠ "") ∧
      (∀ t, fieldOf (defaultRepairedConcept 1) "summary" = some (JValue.jstr t) → t ≠ "") ∧
      (∀ t, fieldOf (defaultRepairedConcept 1) "importance" = some (JValue.jstr t) → t ≠ "")) :=
  ⟨rfl, List.mem_cons_self _ _,
    c10_amended.1 minimalLenientRaw minimalLenientRes rfl (defaultRepairedConcept 1)
      (List.mem_cons_self _ _)⟩

/-- C5 (counterexample): the claim fails for arbitrary surrounding prose:
with leading prose containing a `\x7b`, the slice from the first `\x7b` to
the last `\x7d` starts inside the prose, `JSON.parse` fails, and the
fenced-and-prose-wrapped payload normalizes to a hard failure while the bare
payload normalizes successfully. -/
theorem c5_counterexample :
    lenientNormalize
        ("I \x7bthink: " ++ "```json\n" ++ minimalLenientRaw ++ "\n```" ++ "") ≠
      lenientNormalize minimalLenientRaw := by
  intro h
  exact absurd (congrArg Except.toBool h) (by decide)

/-- C5 (witness): the amended theorem applied at concrete prose and a
concrete payload. -/
theorem c5_witness :
    lenientNormalize
        ("Here is the JSON: " ++ "```json\n" ++ minimalLenientRaw ++ "\n```" ++ " Done.") =
      lenientNormalize minimalLenientRaw :=
  c5_amended "Here is the JSON: " minimalLenientRaw " Done." (by decide) (by decide)
    (by decide) (by decide) (by decide) (by decide) (by decide) (by decide)
